import Mathlib

/-!
Verification development for the funding-reconciliation script
`bin_by_funding.py`.  The script fetches funding payments from Binance
(venue A) by exhaustive time pagination, fetches a snapshot of open
positions from Bybit (venue B) across settlement-currency partitions,
normalizes both into one canonical ledger-event shape, and aggregates the
events by the key (exchange, symbol, asset, type) into summary rows that
are serialized in ascending key order.

The embedding below is a shallow one: Python dicts become structures with
the fields the script reads, `decimal.Decimal` values become `ℚ` (exact
rational arithmetic restricted to decimal strings), raising code returns
`Except String`, and the unbounded `while True` pagination loop takes an
explicit fuel argument (the loop body is translated verbatim; termination
for well-behaved sources is proved as a theorem).
-/

set_option maxRecDepth 100000

namespace Funding

/-! ## Decimal values and decimal strings

The script builds all amounts with `decimal.Decimal(string)` and formats
them with a fixed 10-decimal-place `:.10f`.  A Python `Decimal` is a sign
plus a coefficient times a power of ten; we model it as an integer
coefficient with a scale, value `num / 10 ^ scale`, and addition aligns
scales exactly, as `Decimal` addition does.  The default context
precision of 28 significant digits is not modeled: arithmetic here is
unbounded-precision, which is what the specification asserts.  The
rational value of a `Dec` is given by `Dec.val`, used to state exactness
of the arithmetic. -/

structure Dec where
  num : Int
  scale : Nat
deriving DecidableEq

/-- Rational value of a decimal: `num / 10 ^ scale`. -/
def Dec.val (d : Dec) : ℚ := (d.num : ℚ) / (10 : ℚ) ^ d.scale

/-- Exact decimal addition: align the scales, add the coefficients. -/
def Dec.add (a b : Dec) : Dec :=
  ⟨a.num * 10 ^ (max a.scale b.scale - a.scale)
    + b.num * 10 ^ (max a.scale b.scale - b.scale), max a.scale b.scale⟩

def Dec.neg (a : Dec) : Dec := ⟨-a.num, a.scale⟩

instance : Neg Dec := ⟨Dec.neg⟩

instance : Zero Dec := ⟨⟨0, 0⟩⟩

instance : Add Dec := ⟨Dec.add⟩

/-- Exact decimal addition is a commutative monoid operation, with the
`Decimal("0")` of the aggregation loop as its zero. -/
instance : AddCommMonoid Dec where
  add := (· + ·)
  zero := 0
  add_assoc := by
    rintro ⟨na, sa⟩ ⟨nb, sb⟩ ⟨nc, sc⟩
    show Dec.add (Dec.add ⟨na, sa⟩ ⟨nb, sb⟩) ⟨nc, sc⟩
      = Dec.add ⟨na, sa⟩ (Dec.add ⟨nb, sb⟩ ⟨nc, sc⟩)
    unfold Dec.add
    simp only
    have key : ∀ (x : ℤ) (s m M : ℕ), s ≤ m → m ≤ M →
        x * 10 ^ (m - s) * 10 ^ (M - m) = x * 10 ^ (M - s) := by
      intro x s m M h1 h2
      rw [mul_assoc, ← pow_add]
      congr 2
      omega
    have hM : max (max sa sb) sc = max sa (max sb sc) := max_assoc sa sb sc
    rw [Dec.mk.injEq]
    refine ⟨?_, hM⟩
    rw [add_mul, add_mul]
    rw [key na sa (max sa sb) (max (max sa sb) sc) (le_max_left _ _) (le_max_left _ _)]
    rw [key nb sb (max sa sb) (max (max sa sb) sc) (le_max_right _ _) (le_max_left _ _)]
    rw [key nb sb (max sb sc) (max sa (max sb sc)) (le_max_left _ _) (le_max_right _ _)]
    rw [key nc sc (max sb sc) (max sa (max sb sc)) (le_max_right _ _) (le_max_right _ _)]
    rw [hM]
    ring
  zero_add := by
    rintro ⟨na, sa⟩
    show Dec.add ⟨0, 0⟩ ⟨na, sa⟩ = ⟨na, sa⟩
    unfold Dec.add
    simp
  add_zero := by
    rintro ⟨na, sa⟩
    show Dec.add ⟨na, sa⟩ ⟨0, 0⟩ = ⟨na, sa⟩
    unfold Dec.add
    simp
  add_comm := by
    rintro ⟨na, sa⟩ ⟨nb, sb⟩
    show Dec.add ⟨na, sa⟩ ⟨nb, sb⟩ = Dec.add ⟨nb, sb⟩ ⟨na, sa⟩
    unfold Dec.add
    rw [Dec.mk.injEq]
    refine ⟨?_, max_comm sa sb⟩
    rw [max_comm sb sa]
    ring
  nsmul := nsmulRec
  nsmul_zero := fun _ => rfl
  nsmul_succ := fun _ _ => rfl

def digitsToNat (ds : List Char) : Nat :=
  ds.foldl (fun n c => n * 10 + (c.toNat - 48)) 0

/-- Parse the exponent part of a decimal literal (after the `e`/`E`). -/
def parseExpPart (cs : List Char) : Option Int :=
  match cs with
  | '+' :: ds => if ds ≠ [] ∧ ds.all Char.isDigit then some (digitsToNat ds) else none
  | '-' :: ds => if ds ≠ [] ∧ ds.all Char.isDigit then some (-(digitsToNat ds : Int)) else none
  | ds => if ds ≠ [] ∧ ds.all Char.isDigit then some (digitsToNat ds) else none

/-- Apply a decimal exponent to a parsed mantissa `num / 10 ^ scale`. -/
def applyExp (num : Int) (scale : Nat) (ex : Int) : Dec :=
  if 0 ≤ ex then
    if scale ≤ ex.toNat then ⟨num * 10 ^ (ex.toNat - scale), 0⟩
    else ⟨num, scale - ex.toNat⟩
  else ⟨num, scale + (-ex).toNat⟩

/-- Parse an unsigned decimal literal: digits, optional fraction, optional
exponent.  Mirrors the accepting states of the `Decimal` constructor on
plain numeric strings. -/
def parseMagnitude (cs : List Char) : Option Dec :=
  let intPart := cs.takeWhile Char.isDigit
  let rest := cs.dropWhile Char.isDigit
  match rest with
  | [] => if intPart = [] then none else some ⟨digitsToNat intPart, 0⟩
  | '.' :: rest2 =>
    let fracPart := rest2.takeWhile Char.isDigit
    let rest3 := rest2.dropWhile Char.isDigit
    if intPart = [] ∧ fracPart = [] then none
    else
      let num : Int := digitsToNat intPart * 10 ^ fracPart.length + digitsToNat fracPart
      match rest3 with
      | [] => some ⟨num, fracPart.length⟩
      | 'e' :: es => (parseExpPart es).map (applyExp num fracPart.length)
      | 'E' :: es => (parseExpPart es).map (applyExp num fracPart.length)
      | _ => none
  | 'e' :: es =>
    if intPart = [] then none
    else (parseExpPart es).map (applyExp (digitsToNat intPart) 0)
  | 'E' :: es =>
    if intPart = [] then none
    else (parseExpPart es).map (applyExp (digitsToNat intPart) 0)
  | _ => none

/-- Model of `decimal.Decimal(s)` on plain decimal strings: `none` means
the constructor raises `InvalidOperation`. -/
def parseDecimal (s : String) : Option Dec :=
  match s.data with
  | '+' :: cs => parseMagnitude cs
  | '-' :: cs => (parseMagnitude cs).map Dec.neg
  | cs => parseMagnitude cs

/-- Round `a / b` to the nearest integer, ties to even, for `0 < b`: the
rounding of `:.10f` formatting. -/
def roundHalfEvenNat (a b : Nat) : Nat :=
  let q := a / b
  let r := a % b
  if 2 * r < b then q
  else if b < 2 * r then q + 1
  else if q % 2 = 0 then q else q + 1

/-- Coefficient of the decimal rescaled to exactly 10 fractional digits,
rounding half-to-even when the scale exceeds 10. -/
def fix10 (num : Nat) (scale : Nat) : Nat :=
  if scale ≤ 10 then num * 10 ^ (10 - scale)
  else roundHalfEvenNat num (10 ^ (scale - 10))

/-- Left-pad a string with zeros to the given length. -/
def padZeros (n : Nat) (s : String) : String :=
  String.mk (List.replicate (n - s.data.length) '0' ++ s.data)

/-- Model of `f-string` formatting with `:.10f` of a nonnegative value. -/
def formatNonneg10 (num : Nat) (scale : Nat) : String :=
  let n : Nat := fix10 num scale
  toString (n / 10 ^ 10) ++ "." ++ padZeros 10 (toString (n % 10 ^ 10))

/-- Model of `f-string` formatting with `:.10f`:
fixed 10-decimal-place text rendering of an exact decimal value. -/
def formatFixed10 (d : Dec) : String :=
  if d.num < 0 then "-" ++ formatNonneg10 (-d.num).toNat d.scale
  else formatNonneg10 d.num.toNat d.scale

/-! ## Canonical events and the aggregation key -/

/-- Canonical ledger event produced by the normalizers: one Python dict
with keys `exchange, symbol, asset, amount, time, type`. -/
structure LedgerEvent where
  exchange : String
  symbol : String
  asset : String
  amount : Dec
  time : Nat
  type : String
deriving DecidableEq

/-- Aggregation key `(r["exchange"], r["symbol"], r["asset"], r["type"])`. -/
abbrev Key := String × String × String × String

def keyOf (e : LedgerEvent) : Key := (e.exchange, e.symbol, e.asset, e.type)

/-- Python string comparison: lexicographic by code point, which is the
lexicographic order on the character list of the string. -/
abbrev strLt (a b : String) : Prop := a.data < b.data

/-- Non-strict Python string comparison. -/
abbrev strLe (a b : String) : Prop := a.data ≤ b.data

/-- Lexicographic combination: strictly smaller first component, or equal
first components and inner-related second components.  Python compares
tuples exactly this way. -/
def lexPair {α β : Type} (lt : α → α → Prop) (inner : β → β → Prop)
    (a b : α × β) : Prop :=
  lt a.1 b.1 ∨ (a.1 = b.1 ∧ inner a.2 b.2)

/-- Order in which `sorted(by_key.items())` emits keys: lexicographic on
(exchange, symbol, asset, type) with string comparison inside. -/
def keyLe : Key → Key → Prop :=
  lexPair strLt (lexPair strLt (lexPair strLt strLe))

instance : DecidableRel keyLe := by
  intro a b
  unfold keyLe lexPair strLt strLe
  infer_instance

/-- Comparison actually used on rows of the summary table: by key. -/
def rowLe {γ : Type} (p q : Key × γ) : Prop := keyLe p.1 q.1

instance {γ : Type} : DecidableRel (rowLe (γ := γ)) := by
  intro a b
  unfold rowLe
  infer_instance

/-! ## Binance: raw income records and the paginated fetch -/

/-- Raw record of `/fapi/v1/income`, restricted to the keys the script
reads.  `income` is the amount as a decimal string (absent key modeled as
`none`); `time` is the timestamp in epoch milliseconds. -/
structure BinanceIncome where
  incomeType : Option String
  symbol : String
  asset : Option String
  income : Option String
  time : Nat
deriving DecidableEq

/-- Credentials and configuration read by the script; an empty string
models a missing (falsy) credential. -/
structure Config where
  binanceKey : String
  binanceSecret : String
  bybitKey : String
  bybitSecret : String
deriving DecidableEq

def binanceCredsMsg : String := "Set BINANCE_API_KEY and BINANCE_API_SECRET env vars"

def bybitCredsMsg : String := "Set BYBIT_API_KEY and BYBIT_API_SECRET in config.py"

/-- Model of `binance_signed_request`: raises unless both credentials are
present, otherwise performs the HTTP call abstracted as `venue` (which may
itself fail, modeling transport errors). -/
def binanceReq (cfg : Config) (venue : Option Nat → Except String (List BinanceIncome))
    (start : Option Nat) : Except String (List BinanceIncome) :=
  if cfg.binanceKey = "" ∨ cfg.binanceSecret = "" then .error binanceCredsMsg
  else venue start

/-- Pagination loop of `get_binance_funding`, translated verbatim with an
explicit fuel bound on the number of iterations of `while True`.  The
second component records the `startTime` parameter of every request made
(`none` models the absent `startTime` key).  Any request failure aborts
the whole fetch, as in the script. -/
def fundingFetch (req : Option Nat → Except String (List BinanceIncome)) :
    Nat → Option Nat → Except String (List BinanceIncome × List (Option Nat))
  | 0, _ => .ok ([], [])
  | fuel + 1, start =>
    match req start with
    | .error e => .error e
    | .ok data =>
      if h : data = [] then .ok ([], [start])
      else if data.length < 1000 then .ok (data, [start])
      else
        match fundingFetch req fuel (some ((data.getLast h).time + 1)) with
        | .error e => .error e
        | .ok res => .ok (data ++ res.1, start :: res.2)

/-- Pure pagination loop for sources that always answer; used to reason
about `fundingFetch` when no request fails. -/
def fundingFetchPure (src : Option Nat → List BinanceIncome) :
    Nat → Option Nat → List BinanceIncome × List (Option Nat)
  | 0, _ => ([], [])
  | fuel + 1, start =>
    let data := src start
    if h : data = [] then ([], [start])
    else if data.length < 1000 then (data, [start])
    else
      let res := fundingFetchPure src fuel (some ((data.getLast h).time + 1))
      (data ++ res.1, start :: res.2)

/-- Model of `get_binance_funding`: the accumulated rows of the pagination
loop. -/
def get_binance_funding (req : Option Nat → Except String (List BinanceIncome))
    (fuel : Nat) (start : Option Nat) : Except String (List BinanceIncome) :=
  (fundingFetch req fuel start).map (fun p => p.1)

/-- Model of `normalize_binance`.  The `Decimal(str(r.get("income", "0")))`
call is not guarded by any try/except, so an unparseable income string
raises: the result is `Except`-valued. -/
def normalize_binance : List BinanceIncome → Except String (List LedgerEvent)
  | [] => .ok []
  | r :: rest =>
    if r.incomeType ≠ some "FUNDING_FEE" then normalize_binance rest
    else
      match parseDecimal (r.income.getD "0") with
      | none => .error "decimal.InvalidOperation"
      | some amt =>
        match normalize_binance rest with
        | .error e => .error e
        | .ok tl =>
          .ok ({ exchange := "Binance", symbol := r.symbol,
                 asset := r.asset.getD "USDT", amount := amt,
                 time := r.time, type := "funding" } :: tl)

/-! ## Bybit: position snapshot across settlement partitions -/

/-- Raw position record restricted to the keys the script reads.  String
fields are `none` when absent (Python `None`); `updatedTime` is `none`
when absent or falsy. -/
structure BybitPosition where
  size : Option String
  symbol : Option String
  curRealisedPnl : Option String
  updatedTime : Option Nat
deriving DecidableEq

/-- Payload field `result` of the position-list response. -/
structure BybitResult where
  list : Option (List BybitPosition)
deriving DecidableEq

/-- Response of `/v5/position/list` restricted to the keys the script
reads.  `retCode` is `none` when the key is absent. -/
structure BybitResp where
  retCode : Option Int
  retMsg : Option String
  result : Option BybitResult
deriving DecidableEq

/-- Model of `bybit_signed_request`: raises unless both credentials are
present, otherwise performs the HTTP call abstracted as `venue`. -/
def bybitReq (cfg : Config) (venue : String → Except String BybitResp)
    (settle : String) : Except String BybitResp :=
  if cfg.bybitKey = "" ∨ cfg.bybitSecret = "" then .error bybitCredsMsg
  else venue settle

/-- Records contributed by one settlement-currency partition: an exception
or a non-zero `retCode` is skipped (logged as a warning in the script) and
contributes nothing. -/
def bybit_partition (req : String → Except String BybitResp) (settle : String) :
    List BybitPosition :=
  match req settle with
  | .error _ => []
  | .ok data =>
    if data.retCode ≠ some 0 then []
    else ((data.result.getD { list := none }).list.getD [])

/-- Model of `get_bybit_realized_raw`: extend the accumulator with each
partition of the for-loop over `["USDT", "USDC"]`. -/
def get_bybit_realized_raw (req : String → Except String BybitResp) :
    List BybitPosition :=
  ["USDT", "USDC"].foldl (fun acc settle => acc ++ bybit_partition req settle) []

/-- Delete every non-overlapping occurrence of `pat` scanning left to
right: `s.replace(pat, "")` on character lists. -/
def delOcc (pat : List Char) : List Char → List Char
  | [] => []
  | c :: rest =>
    if pat.length ≠ 0 ∧ (c :: rest).take pat.length = pat then
      delOcc pat ((c :: rest).drop pat.length)
    else
      c :: delOcc pat rest
termination_by s => s.length
decreasing_by
  · rename_i h
    simp only [List.length_drop, List.length_cons]
    omega
  · simp

/-- Occurrence test matching the scan of `delOcc`: true when `pat` occurs
as a contiguous sublist. -/
def containsPat (pat : List Char) : List Char → Bool
  | [] => false
  | c :: rest => ((c :: rest).take pat.length = pat : Bool) || containsPat pat rest

/-- Asset derivation of `normalize_bybit`:
`symbol.replace("USDT", "").replace("USDC", "")`. -/
def strip_settle (symbol : String) : String :=
  String.mk (delOcc "USDC".data (delOcc "USDT".data symbol.data))

/-- Model of `normalize_bybit`: skip falsy or literal-zero sizes, skip
falsy symbols, strip settlement coins from the symbol, parse the realized
PnL defaulting to zero on parse failure (the one try/except in the
normalizers), and default the timestamp to zero. -/
def normalize_bybit : List BybitPosition → List LedgerEvent
  | [] => []
  | pos :: rest =>
    let size := pos.size.getD ""
    if size = "" ∨ size = "0" ∨ size = "0.0" then normalize_bybit rest
    else
      let symbol := pos.symbol.getD ""
      if symbol = "" then normalize_bybit rest
      else
        let pnlStr0 := pos.curRealisedPnl.getD ""
        let pnlStr := if pnlStr0 = "" then "0" else pnlStr0
        { exchange := "Bybit", symbol := symbol, asset := strip_settle symbol,
          amount := (parseDecimal pnlStr).getD 0,
          time := pos.updatedTime.getD 0, type := "realized_pnl" }
          :: normalize_bybit rest

/-! ## Aggregation (the in-memory part of `write_csv`) -/

/-- Aggregate state of one summary row, the dict
`{"total": ..., "first": ..., "last": ..., "count": ...}`. -/
structure Agg where
  total : Dec
  first : Nat
  last : Nat
  count : Nat
deriving DecidableEq

/-- Lookup in the insertion-ordered association list modeling `by_key`. -/
def findKey : List (Key × Agg) → Key → Option Agg
  | [], _ => none
  | (k, a) :: t, key => if k = key then some a else findKey t key

/-- Unconditional update applied to the entry of the key of `r`:
`total += amount; count += 1; first = min ..; last = max ..`. -/
def bump (a : Agg) (r : LedgerEvent) : Agg :=
  { total := a.total + r.amount, first := min a.first r.time,
    last := max a.last r.time, count := a.count + 1 }

/-- In-place update of the dict entry of key `k`: entries of other keys
are left unchanged. -/
def bumpAt (k : Key) (r : LedgerEvent) (p : Key × Agg) : Key × Agg :=
  if p.1 = k then (p.1, bump p.2 r) else p

/-- One iteration of the `for r in rows` loop of `write_csv`: initialize
the entry when the key is new (inserted at the end, as in a Python dict),
then apply the unconditional update. -/
def by_key_step (acc : List (Key × Agg)) (r : LedgerEvent) : List (Key × Agg) :=
  if (findKey acc (keyOf r)).isSome then
    acc.map (bumpAt (keyOf r) r)
  else
    acc ++ [(keyOf r, bump { total := 0, first := r.time, last := r.time, count := 0 } r)]

/-- Model of the `by_key` dict after the aggregation loop of `write_csv`,
as an insertion-ordered association list. -/
def by_key (rows : List LedgerEvent) : List (Key × Agg) :=
  rows.foldl by_key_step []

/-- Summary rows in output order: `sorted(by_key.items())`.  Keys are
distinct, so sorting by key agrees with the Python tuple sort. -/
def summary_rows (rows : List LedgerEvent) : List (Key × Agg) :=
  List.insertionSort rowLe (by_key rows)

/-- One serialized summary row (comma-joined; the fields the script writes
contain no delimiter, so csv quoting is the identity). -/
def renderSummaryRow (p : Key × Agg) : String :=
  String.intercalate ","
    [p.1.1, p.1.2.1, p.1.2.2.1, p.1.2.2.2, formatFixed10 p.2.total,
     toString p.2.count, toString p.2.first, toString p.2.last]

/-- Serialized summary table: header plus one line per summary row. -/
def summary_lines (rows : List LedgerEvent) : List String :=
  "exchange,symbol,asset,type,total_amount,periods,first_time,last_time"
    :: (summary_rows rows).map renderSummaryRow

/-- One serialized details row. -/
def renderDetailsRow (r : LedgerEvent) : String :=
  String.intercalate ","
    [r.exchange, r.symbol, r.asset, r.type, formatFixed10 r.amount, toString r.time]

/-- Serialized details table: header plus one line per canonical event. -/
def details_lines (rows : List LedgerEvent) : List String :=
  "exchange,symbol,asset,type,amount,time" :: rows.map renderDetailsRow

/-! ## Main pipeline -/

/-- Start bound hard-coded in `main`. -/
def START_MS : Nat := 1762732800000

/-- Model of `main`: fetch and normalize Binance (any failure aborts the
run), fetch and normalize Bybit (partition failures and missing Bybit
credentials are absorbed inside the fetch, yielding zero events),
concatenate, and serialize both tables.  The result pair is
(summary table, details table). -/
def main_run (cfg : Config) (binanceVenue : Option Nat → Except String (List BinanceIncome))
    (bybitVenue : String → Except String BybitResp) (fuel : Nat) :
    Except String (List String × List String) :=
  match get_binance_funding (binanceReq cfg binanceVenue) fuel (some START_MS) with
  | .error e => .error e
  | .ok rawB =>
    match normalize_binance rawB with
    | .error e => .error e
    | .ok normB =>
      let normBy := normalize_bybit (get_bybit_realized_raw (bybitReq cfg bybitVenue))
      let rows := normB ++ normBy
      .ok (summary_lines rows, details_lines rows)

/-! ## Specification-side definitions

These definitions follow the words of the specification (not the code);
the theorems below compare the code translation against them. -/

/-- Minimum of `t` and the times of `es`, folded as the aggregation loop
updates `first`. -/
def minTimes (t : Nat) (es : List LedgerEvent) : Nat :=
  es.foldl (fun m x => min m x.time) t

/-- Maximum of `t` and the times of `es`. -/
def maxTimes (t : Nat) (es : List LedgerEvent) : Nat :=
  es.foldl (fun m x => max m x.time) t

/-- Follows the specification words for the aggregator: for a partition of
events sharing one key, `total` is the exact-decimal sum of `amount`,
`count` the number of events, `first` and `last` the minimum and maximum
of `time`; an empty partition has no summary row. -/
def aggSpec : List LedgerEvent → Option Agg
  | [] => none
  | e :: es =>
    some { total := ((e :: es).map LedgerEvent.amount).sum,
           first := minTimes e.time es,
           last := maxTimes e.time es,
           count := (e :: es).length }

/-- Follows the specification words for claim C8: strip a known
settlement-currency suffix (USDT or USDC) from the end of the symbol and
leave the remainder of the symbol otherwise unchanged. -/
def suffixStrip (s : String) : String :=
  if 4 ≤ s.data.length ∧
      (s.data.drop (s.data.length - 4) = "USDT".data ∨
       s.data.drop (s.data.length - 4) = "USDC".data)
  then String.mk (s.data.take (s.data.length - 4))
  else s

/-! ## Synthetic paginated sources for claim C1 -/

/-- Comparison of income records by timestamp. -/
abbrev timeLe (a b : BinanceIncome) : Prop := a.time ≤ b.time

/-- Paginated source backed by a finite history sorted by time: a request
with cursor `start` answers the first 1000 records at or after the cursor
(`none` means no lower bound). -/
def histSrc (hist : List BinanceIncome) (start : Option Nat) : List BinanceIncome :=
  (hist.filter (fun r => start.getD 0 ≤ r.time)).take 1000

/-- Number of records of the history at or after the cursor. -/
def remaining (hist : List BinanceIncome) (start : Option Nat) : Nat :=
  (hist.filter (fun r => start.getD 0 ≤ r.time)).length

/-- Funding record with timestamp `i`. -/
def mkRec (i : Nat) : BinanceIncome :=
  { incomeType := some "FUNDING_FEE", symbol := "BTCUSDT",
    asset := some "USDT", income := some "0.0001", time := i }

/-- Synthetic paginated source over 2400 records with strictly increasing
timestamps 0, 1, ..., 2399: a request with cursor `s` answers the at most
1000 records at or after `s`, so the loop sees pages of sizes 1000, 1000
and 400. -/
def pageSrc (start : Option Nat) : List BinanceIncome :=
  (List.range' (start.getD 0) (min 1000 (2400 - start.getD 0))).map mkRec

/-! ## Concrete instances used by the claims -/

/-- Event (venue A, BTC, USDT, funding, +1.5, t=100); the script labels
venue A as Binance. -/
def evA : LedgerEvent :=
  { exchange := "Binance", symbol := "BTC", asset := "USDT",
    amount := ⟨15, 1⟩, time := 100, type := "funding" }

/-- Event (venue A, BTC, USDT, funding, -0.5, t=200). -/
def evB : LedgerEvent :=
  { exchange := "Binance", symbol := "BTC", asset := "USDT",
    amount := ⟨-5, 1⟩, time := 200, type := "funding" }

/-- Income record whose numeric amount field is present but unparseable. -/
def badIncome : BinanceIncome :=
  { incomeType := some "FUNDING_FEE", symbol := "BTCUSDT",
    asset := some "USDT", income := some "abc", time := 100 }

/-- Position with nonzero size and no symbol field. -/
def noSymbolPos : BybitPosition :=
  { size := some "0.5", symbol := none, curRealisedPnl := some "1.0",
    updatedTime := some 5 }

/-- Position whose symbol contains USDT as a non-suffix occurrence. -/
def usdtPrefixPos : BybitPosition :=
  { size := some "1", symbol := some "USDTBTC", curRealisedPnl := some "0",
    updatedTime := some 5 }

/-- Three income records of amount 0.00000001 each. -/
def tinyIncomes : List BinanceIncome :=
  List.replicate 3
    { incomeType := some "FUNDING_FEE", symbol := "BTCUSDT",
      asset := some "USDT", income := some "0.00000001", time := 7 }

/-- Event with a key different from `evA`, for the ordering claim. -/
def evC : LedgerEvent :=
  { exchange := "Bybit", symbol := "ETHUSDT", asset := "ETH",
    amount := ⟨7, 2⟩, time := 50, type := "realized_pnl" }

/-- Position with an unparseable realized-PnL string. -/
def badPnlPos : BybitPosition :=
  { size := some "1", symbol := some "BTCUSDT", curRealisedPnl := some "abc",
    updatedTime := some 3 }

/-- Configuration with Binance credentials only. -/
def cfgNoBybit : Config :=
  { binanceKey := "k", binanceSecret := "s", bybitKey := "", bybitSecret := "" }

/-- Configuration with Bybit credentials only. -/
def cfgNoBinance : Config :=
  { binanceKey := "", binanceSecret := "", bybitKey := "k", bybitSecret := "s" }

/-- Binance venue that always answers with an empty page. -/
def emptyBinanceVenue : Option Nat → Except String (List BinanceIncome) :=
  fun _ => .ok []

/-- Bybit venue that always answers with an empty successful response. -/
def emptyBybitVenue : String → Except String BybitResp :=
  fun _ => .ok { retCode := some 0, retMsg := none, result := none }

/-- Small sorted history for the pagination termination witness. -/
def smallHist : List BinanceIncome :=
  [{ incomeType := some "FUNDING_FEE", symbol := "BTCUSDT", asset := some "USDT",
     income := some "0.1", time := 1 },
   { incomeType := some "FUNDING_FEE", symbol := "BTCUSDT", asset := some "USDT",
     income := some "0.2", time := 2 },
   { incomeType := some "FUNDING_FEE", symbol := "BTCUSDT", asset := some "USDT",
     income := some "0.3", time := 3 }]

/-- Successful position-list response carrying three records. -/
def threeRecsResp : BybitResp :=
  { retCode := some 0, retMsg := none,
    result := some { list := some [badPnlPos, badPnlPos, badPnlPos] } }

/-- Position with literal zero size. -/
def zeroSizePos : BybitPosition :=
  { size := some "0", symbol := some "BTCUSDT", curRealisedPnl := some "1",
    updatedTime := some 1 }

/-- Position with nonzero size and a normal symbol. -/
def halfSizePos : BybitPosition :=
  { size := some "0.5", symbol := some "BTCUSDT", curRealisedPnl := some "1",
    updatedTime := some 1 }

/-! ## Order lemmas for the key comparison -/

theorem string_data_eq {a b : String} (h : a.data = b.data) : a = b := by
  cases a; cases b; exact congrArg String.mk h

theorem strLt_tri (a b : String) : strLt a b ∨ a = b ∨ strLt b a := by
  rcases lt_trichotomy a.data b.data with h | h | h
  · exact Or.inl h
  · exact Or.inr (Or.inl (string_data_eq h))
  · exact Or.inr (Or.inr h)

theorem lexPair_total {α β : Type} {lt : α → α → Prop} {inner : β → β → Prop}
    (hlt : ∀ a b : α, lt a b ∨ a = b ∨ lt b a)
    (hin : ∀ x y : β, inner x y ∨ inner y x) :
    ∀ p q : α × β, lexPair lt inner p q ∨ lexPair lt inner q p := by
  intro p q
  unfold lexPair
  rcases hlt p.1 q.1 with h | h | h
  · exact Or.inl (Or.inl h)
  · rcases hin p.2 q.2 with h2 | h2
    · exact Or.inl (Or.inr ⟨h, h2⟩)
    · exact Or.inr (Or.inr ⟨h.symm, h2⟩)
  · exact Or.inr (Or.inl h)

theorem lexPair_trans {α β : Type} {lt : α → α → Prop} {inner : β → β → Prop}
    (hlt : ∀ a b c : α, lt a b → lt b c → lt a c)
    (hin : ∀ x y z : β, inner x y → inner y z → inner x z) :
    ∀ p q r : α × β, lexPair lt inner p q → lexPair lt inner q r → lexPair lt inner p r := by
  unfold lexPair
  rintro p q r (h1 | ⟨e1, i1⟩) (h2 | ⟨e2, i2⟩)
  · exact Or.inl (hlt _ _ _ h1 h2)
  · exact Or.inl (e2 ▸ h1)
  · exact Or.inl (by rw [e1]; exact h2)
  · exact Or.inr ⟨e1.trans e2, hin _ _ _ i1 i2⟩

theorem lexPair_antisymm {α β : Type} {lt : α → α → Prop} {inner : β → β → Prop}
    (hlt : ∀ a : α, lt a a → False)
    (htr : ∀ a b c : α, lt a b → lt b c → lt a c)
    (hin : ∀ x y : β, inner x y → inner y x → x = y) :
    ∀ p q : α × β, lexPair lt inner p q → lexPair lt inner q p → p = q := by
  unfold lexPair
  rintro p q (h1 | ⟨e1, i1⟩) (h2 | ⟨e2, i2⟩)
  · exact (hlt _ (htr _ _ _ h1 h2)).elim
  · exact (hlt _ (by rw [e2] at h1; exact h1)).elim
  · exact (hlt _ (by rw [e1] at h2; exact h2)).elim
  · exact Prod.ext e1 (hin _ _ i1 i2)

theorem strLe_total3 (x y : String) : strLe x y ∨ strLe y x := le_total x.data y.data

theorem strLe_trans3 (x y z : String) (h1 : strLe x y) (h2 : strLe y z) : strLe x z :=
  le_trans h1 h2

theorem strLe_antisymm3 (x y : String) (h1 : strLe x y) (h2 : strLe y x) : x = y :=
  string_data_eq (le_antisymm h1 h2)

theorem strLt_trans3 (x y z : String) (h1 : strLt x y) (h2 : strLt y z) : strLt x z :=
  lt_trans h1 h2

theorem strLt_irr3 (x : String) (h : strLt x x) : False := lt_irrefl _ h

theorem pair2_total (p q : String × String) :
    lexPair strLt strLe p q ∨ lexPair strLt strLe q p :=
  @lexPair_total String String strLt strLe strLt_tri strLe_total3 p q

theorem pair2_trans (p q r : String × String)
    (h1 : lexPair strLt strLe p q) (h2 : lexPair strLt strLe q r) :
    lexPair strLt strLe p r :=
  @lexPair_trans String String strLt strLe strLt_trans3 strLe_trans3 p q r h1 h2

theorem pair2_antisymm (p q : String × String)
    (h1 : lexPair strLt strLe p q) (h2 : lexPair strLt strLe q p) : p = q :=
  @lexPair_antisymm String String strLt strLe strLt_irr3 strLt_trans3 strLe_antisymm3
    p q h1 h2

theorem pair3_total (p q : String × String × String) :
    lexPair strLt (lexPair strLt strLe) p q ∨ lexPair strLt (lexPair strLt strLe) q p :=
  @lexPair_total String (String × String) strLt (lexPair strLt strLe)
    strLt_tri pair2_total p q

theorem pair3_trans (p q r : String × String × String)
    (h1 : lexPair strLt (lexPair strLt strLe) p q)
    (h2 : lexPair strLt (lexPair strLt strLe) q r) :
    lexPair strLt (lexPair strLt strLe) p r :=
  @lexPair_trans String (String × String) strLt (lexPair strLt strLe)
    strLt_trans3 pair2_trans p q r h1 h2

theorem pair3_antisymm (p q : String × String × String)
    (h1 : lexPair strLt (lexPair strLt strLe) p q)
    (h2 : lexPair strLt (lexPair strLt strLe) q p) : p = q :=
  @lexPair_antisymm String (String × String) strLt (lexPair strLt strLe)
    strLt_irr3 strLt_trans3 pair2_antisymm p q h1 h2

theorem keyLe_total (a b : Key) : keyLe a b ∨ keyLe b a :=
  @lexPair_total String (String × String × String) strLt
    (lexPair strLt (lexPair strLt strLe)) strLt_tri pair3_total a b

theorem keyLe_trans {a b c : Key} (h1 : keyLe a b) (h2 : keyLe b c) : keyLe a c :=
  @lexPair_trans String (String × String × String) strLt
    (lexPair strLt (lexPair strLt strLe)) strLt_trans3 pair3_trans a b c h1 h2

theorem keyLe_antisymm {a b : Key} (h1 : keyLe a b) (h2 : keyLe b a) : a = b :=
  @lexPair_antisymm String (String × String × String) strLt
    (lexPair strLt (lexPair strLt strLe)) strLt_irr3 strLt_trans3 pair3_antisymm a b h1 h2

instance {γ : Type} : IsTotal (Key × γ) rowLe :=
  ⟨fun a b => keyLe_total a.1 b.1⟩

instance {γ : Type} : IsTrans (Key × γ) rowLe :=
  ⟨fun _ _ _ h1 h2 => keyLe_trans h1 h2⟩

/-! ## Association-list lemmas for the `by_key` dict -/

theorem findKey_append_of_ne (l : List (Key × Agg)) (k0 k : Key) (x : Agg)
    (h : k0 ≠ k) : findKey (l ++ [(k0, x)]) k = findKey l k := by
  induction l with
  | nil => simp [findKey, h]
  | cons p t ih =>
    by_cases hk : p.1 = k
    · simp [findKey, hk]
    · simp [findKey, hk, ih]

theorem findKey_append_self (l : List (Key × Agg)) (k : Key) (x : Agg)
    (h : findKey l k = none) : findKey (l ++ [(k, x)]) k = some x := by
  induction l with
  | nil => simp [findKey]
  | cons p t ih =>
    by_cases hk : p.1 = k
    · simp [findKey, hk] at h
    · simp [findKey, hk] at h ⊢
      exact ih h

theorem bumpAt_self (k : Key) (r : LedgerEvent) (a : Agg) :
    bumpAt k r (k, a) = (k, bump a r) := by
  unfold bumpAt
  exact if_pos rfl

theorem bumpAt_ne (k : Key) (r : LedgerEvent) (k0 : Key) (a0 : Agg) (h : k0 ≠ k) :
    bumpAt k r (k0, a0) = (k0, a0) := by
  unfold bumpAt
  exact if_neg h

theorem findKey_map_bump_self (l : List (Key × Agg)) (r : LedgerEvent) :
    findKey (l.map (bumpAt (keyOf r) r)) (keyOf r)
      = (findKey l (keyOf r)).map (fun a => bump a r) := by
  induction l with
  | nil => rfl
  | cons p t ih =>
    obtain ⟨k0, a0⟩ := p
    by_cases hk : k0 = keyOf r
    · subst hk
      rw [List.map_cons, bumpAt_self]
      simp [findKey]
    · rw [List.map_cons, bumpAt_ne _ _ _ _ hk]
      simp [findKey, hk, ih]

theorem findKey_map_bump_ne (l : List (Key × Agg)) (r : LedgerEvent) (k : Key)
    (h : k ≠ keyOf r) :
    findKey (l.map (bumpAt (keyOf r) r)) k = findKey l k := by
  induction l with
  | nil => rfl
  | cons p t ih =>
    obtain ⟨k0, a0⟩ := p
    by_cases hp : k0 = keyOf r
    · subst hp
      rw [List.map_cons, bumpAt_self]
      have hne : keyOf r ≠ k := fun hh => h hh.symm
      simp [findKey, hne, ih]
    · rw [List.map_cons, bumpAt_ne _ _ _ _ hp]
      by_cases hk : k0 = k
      · simp [findKey, hk]
      · simp [findKey, hk, ih]

theorem findKey_none_of_not_mem (l : List (Key × Agg)) (k : Key)
    (h : k ∉ l.map Prod.fst) : findKey l k = none := by
  induction l with
  | nil => rfl
  | cons p t ih =>
    obtain ⟨k0, a0⟩ := p
    simp only [List.map_cons, List.mem_cons] at h
    push_neg at h
    have hk : k0 ≠ k := fun hh => h.1 hh.symm
    simp [findKey, hk]
    exact ih h.2

theorem not_mem_of_findKey_none (l : List (Key × Agg)) (k : Key)
    (h : findKey l k = none) : k ∉ l.map Prod.fst := by
  induction l with
  | nil => simp
  | cons p t ih =>
    obtain ⟨k0, a0⟩ := p
    by_cases hk : k0 = k
    · simp [findKey, hk] at h
    · simp only [findKey, hk, if_false] at h
      simp only [List.map_cons, List.mem_cons]
      push_neg
      exact ⟨fun hh => hk hh.symm, ih h⟩

theorem mem_of_findKey (l : List (Key × Agg)) (k : Key) (a : Agg)
    (h : findKey l k = some a) : (k, a) ∈ l := by
  induction l with
  | nil => simp [findKey] at h
  | cons p t ih =>
    obtain ⟨k0, a0⟩ := p
    by_cases hk : k0 = k
    · subst hk
      simp [findKey] at h
      subst h
      exact List.mem_cons_self _ _
    · simp [findKey, hk] at h
      exact List.mem_cons_of_mem _ (ih h)

theorem findKey_of_mem (l : List (Key × Agg)) (k : Key) (a : Agg)
    (hn : (l.map Prod.fst).Nodup) (h : (k, a) ∈ l) : findKey l k = some a := by
  induction l with
  | nil => simp at h
  | cons p t ih =>
    obtain ⟨k0, a0⟩ := p
    simp only [List.map_cons, List.nodup_cons] at hn
    rcases List.mem_cons.1 h with h1 | h1
    · injection h1 with hk ha
      subst hk
      subst ha
      simp [findKey]
    · have hkmem : k ∈ t.map Prod.fst := by
        exact List.mem_map_of_mem Prod.fst h1
      have hk : k0 ≠ k := fun hh => hn.1 (hh ▸ hkmem)
      simp [findKey, hk]
      exact ih hn.2 h1

/-! ## Fold lemmas for the running minimum and maximum -/

theorem minTimes_append (t : Nat) (es : List LedgerEvent) (e : LedgerEvent) :
    minTimes t (es ++ [e]) = min (minTimes t es) e.time := by
  simp [minTimes, List.foldl_append]

theorem maxTimes_append (t : Nat) (es : List LedgerEvent) (e : LedgerEvent) :
    maxTimes t (es ++ [e]) = max (maxTimes t es) e.time := by
  simp [maxTimes, List.foldl_append]

theorem minTimes_mem (es : List LedgerEvent) : ∀ t : Nat,
    minTimes t es ∈ t :: es.map LedgerEvent.time := by
  induction es with
  | nil => intro t; simp [minTimes]
  | cons x xs ih =>
    intro t
    have h0 : minTimes t (x :: xs) = minTimes (min t x.time) xs := by
      simp [minTimes]
    rw [h0]
    rcases List.mem_cons.1 (ih (min t x.time)) with h1 | h1
    · rcases min_choice t x.time with hm | hm
      · rw [h1, hm]; exact List.mem_cons_self _ _
      · rw [h1, hm]
        exact List.mem_cons_of_mem _ (by simp)
    · exact List.mem_cons_of_mem _ (by simp; right; simpa using h1)

theorem minTimes_le (es : List LedgerEvent) : ∀ t : Nat,
    ∀ s ∈ t :: es.map LedgerEvent.time, minTimes t es ≤ s := by
  induction es with
  | nil => intro t s hs; simp at hs; simp [minTimes, hs]
  | cons x xs ih =>
    intro t s hs
    have h0 : minTimes t (x :: xs) = minTimes (min t x.time) xs := by
      simp [minTimes]
    rw [h0]
    have hhead : minTimes (min t x.time) xs ≤ min t x.time :=
      ih (min t x.time) _ (List.mem_cons_self _ _)
    rcases List.mem_cons.1 hs with h1 | h1
    · subst h1
      exact le_trans hhead (min_le_left _ _)
    · rw [List.map_cons] at h1
      rcases List.mem_cons.1 h1 with h2 | h2
      · subst h2
        exact le_trans hhead (min_le_right _ _)
      · exact ih (min t x.time) s (List.mem_cons_of_mem _ h2)

theorem maxTimes_mem (es : List LedgerEvent) : ∀ t : Nat,
    maxTimes t es ∈ t :: es.map LedgerEvent.time := by
  induction es with
  | nil => intro t; simp [maxTimes]
  | cons x xs ih =>
    intro t
    have h0 : maxTimes t (x :: xs) = maxTimes (max t x.time) xs := by
      simp [maxTimes]
    rw [h0]
    rcases List.mem_cons.1 (ih (max t x.time)) with h1 | h1
    · rcases max_choice t x.time with hm | hm
      · rw [h1, hm]; exact List.mem_cons_self _ _
      · rw [h1, hm]
        exact List.mem_cons_of_mem _ (by simp)
    · exact List.mem_cons_of_mem _ (by simp; right; simpa using h1)

theorem maxTimes_ge (es : List LedgerEvent) : ∀ t : Nat,
    ∀ s ∈ t :: es.map LedgerEvent.time, s ≤ maxTimes t es := by
  induction es with
  | nil => intro t s hs; simp at hs; simp [maxTimes, hs]
  | cons x xs ih =>
    intro t s hs
    have h0 : maxTimes t (x :: xs) = maxTimes (max t x.time) xs := by
      simp [maxTimes]
    rw [h0]
    have hhead : max t x.time ≤ maxTimes (max t x.time) xs :=
      ih (max t x.time) _ (List.mem_cons_self _ _)
    rcases List.mem_cons.1 hs with h1 | h1
    · subst h1
      exact le_trans (le_max_left _ _) hhead
    · rw [List.map_cons] at h1
      rcases List.mem_cons.1 h1 with h2 | h2
      · subst h2
        exact le_trans (le_max_right _ _) hhead
      · exact ih (max t x.time) s (List.mem_cons_of_mem _ h2)

/-! ## Characterization of the `by_key` aggregation -/

theorem by_key_append (rows : List LedgerEvent) (e : LedgerEvent) :
    by_key (rows ++ [e]) = by_key_step (by_key rows) e := by
  simp [by_key, List.foldl_append]

theorem aggSpec_ne_nil {g : List LedgerEvent} {a : Agg} (h : aggSpec g = some a) :
    g ≠ [] := by
  intro hg
  rw [hg] at h
  simp [aggSpec] at h

/-- Central invariant of the aggregation loop: looking up a key in the
`by_key` dict yields exactly the specification-side aggregate of the
partition of the input with that key. -/
theorem by_key_lookup (rows : List LedgerEvent) (k : Key) :
    findKey (by_key rows) k = aggSpec (rows.filter (fun e => keyOf e = k)) := by
  induction rows using List.reverseRecOn with
  | nil => rfl
  | append_singleton rs e ih =>
    rw [by_key_append, List.filter_append]
    by_cases hk : keyOf e = k
    · subst hk
      have hfe : List.filter (fun x => decide (keyOf x = keyOf e)) [e] = [e] := by simp
      rw [hfe]
      unfold by_key_step
      by_cases hs : (findKey (by_key rs) (keyOf e)).isSome
      · rw [if_pos hs]
        obtain ⟨a, ha⟩ := Option.isSome_iff_exists.1 hs
        rw [findKey_map_bump_self, ha]
        have hga : aggSpec (rs.filter (fun x => decide (keyOf x = keyOf e))) = some a := by
          rw [← ih]; exact ha
        cases hgc : rs.filter (fun x => decide (keyOf x = keyOf e)) with
        | nil => rw [hgc] at hga; simp [aggSpec] at hga
        | cons e0 es =>
          rw [hgc] at hga
          have ha2 : a = { total := ((e0 :: es).map LedgerEvent.amount).sum,
                           first := minTimes e0.time es,
                           last := maxTimes e0.time es,
                           count := (e0 :: es).length } := by
            simpa [aggSpec] using hga.symm
          rw [ha2]
          simp [aggSpec, bump, minTimes_append, maxTimes_append, List.sum_append,
            List.map_append, List.length_append, add_assoc]
      · rw [if_neg hs]
        have hnone : findKey (by_key rs) (keyOf e) = none :=
          Option.not_isSome_iff_eq_none.1 hs
        have hgnil : rs.filter (fun x => decide (keyOf x = keyOf e)) = [] := by
          rw [hnone] at ih
          cases hgc : rs.filter (fun x => decide (keyOf x = keyOf e)) with
          | nil => rfl
          | cons e0 es => rw [hgc] at ih; simp [aggSpec] at ih
        rw [findKey_append_self _ _ _ hnone, hgnil]
        simp [aggSpec, bump, minTimes, maxTimes]
    · have hfe : List.filter (fun x => decide (keyOf x = k)) [e] = [] := by simp [hk]
      rw [hfe, List.append_nil]
      unfold by_key_step
      by_cases hs : (findKey (by_key rs) (keyOf e)).isSome
      · rw [if_pos hs, findKey_map_bump_ne _ _ _ (fun hh => hk hh.symm)]
        exact ih
      · rw [if_neg hs, findKey_append_of_ne _ _ _ _ hk]
        exact ih

theorem by_key_keys_nodup (rows : List LedgerEvent) :
    ((by_key rows).map Prod.fst).Nodup := by
  induction rows using List.reverseRecOn with
  | nil => simp [by_key]
  | append_singleton rs e ih =>
    rw [by_key_append]
    unfold by_key_step
    by_cases hs : (findKey (by_key rs) (keyOf e)).isSome
    · rw [if_pos hs]
      have hmm : ∀ p ∈ by_key rs, (Prod.fst ∘ bumpAt (keyOf e) e) p = Prod.fst p := by
        intro p hp
        obtain ⟨k0, a0⟩ := p
        by_cases hq : k0 = keyOf e
        · subst hq; rw [Function.comp_apply, bumpAt_self]
        · rw [Function.comp_apply, bumpAt_ne _ _ _ _ hq]
      rw [List.map_map, List.map_congr_left hmm]
      exact ih
    · rw [if_neg hs]
      have hnm : keyOf e ∉ (by_key rs).map Prod.fst :=
        not_mem_of_findKey_none _ _ (Option.not_isSome_iff_eq_none.1 hs)
      rw [List.map_append]
      simp [List.nodup_append, ih, hnm]

/-! ## Permutation invariance of the aggregation -/

theorem aggSpec_perm {g g' : List LedgerEvent} (h : g.Perm g') : aggSpec g = aggSpec g' := by
  cases g with
  | nil =>
    have hg' : g' = [] := (h.symm).eq_nil
    rw [hg']
  | cons e es =>
    cases g' with
    | nil =>
      have := h.eq_nil
      simp at this
    | cons f fs =>
      have hamt := h.map LedgerEvent.amount
      have htime := h.map LedgerEvent.time
      have h1 : ((e :: es).map LedgerEvent.amount).sum = ((f :: fs).map LedgerEvent.amount).sum :=
        hamt.sum_eq
      have h2 : (e :: es).length = (f :: fs).length := h.length_eq
      have h3 : minTimes e.time es = minTimes f.time fs := by
        apply le_antisymm
        · have hm : minTimes f.time fs ∈ (f :: fs).map LedgerEvent.time := by
            simpa using minTimes_mem fs f.time
          have hm2 : minTimes f.time fs ∈ (e :: es).map LedgerEvent.time :=
            htime.symm.mem_iff.1 hm
          exact minTimes_le es e.time _ (by simpa using hm2)
        · have hm : minTimes e.time es ∈ (e :: es).map LedgerEvent.time := by
            simpa using minTimes_mem es e.time
          have hm2 : minTimes e.time es ∈ (f :: fs).map LedgerEvent.time :=
            htime.mem_iff.1 hm
          exact minTimes_le fs f.time _ (by simpa using hm2)
      have h4 : maxTimes e.time es = maxTimes f.time fs := by
        apply le_antisymm
        · have hm : maxTimes e.time es ∈ (e :: es).map LedgerEvent.time := by
            simpa using maxTimes_mem es e.time
          have hm2 : maxTimes e.time es ∈ (f :: fs).map LedgerEvent.time :=
            htime.mem_iff.1 hm
          exact maxTimes_ge fs f.time _ (by simpa using hm2)
        · have hm : maxTimes f.time fs ∈ (f :: fs).map LedgerEvent.time := by
            simpa using maxTimes_mem fs f.time
          have hm2 : maxTimes f.time fs ∈ (e :: es).map LedgerEvent.time :=
            htime.symm.mem_iff.1 hm
          exact maxTimes_ge es e.time _ (by simpa using hm2)
      simp only [aggSpec, Option.some.injEq, Agg.mk.injEq]
      exact ⟨h1, h3, h4, h2⟩

theorem by_key_findKey_perm {rows rows' : List LedgerEvent} (h : rows.Perm rows')
    (k : Key) : findKey (by_key rows) k = findKey (by_key rows') k := by
  rw [by_key_lookup, by_key_lookup]
  exact aggSpec_perm (h.filter _)

theorem by_key_nodup (rows : List LedgerEvent) : (by_key rows).Nodup :=
  (by_key_keys_nodup rows).of_map

theorem by_key_perm {rows rows' : List LedgerEvent} (h : rows.Perm rows') :
    (by_key rows).Perm (by_key rows') := by
  rw [List.perm_ext_iff_of_nodup (by_key_nodup rows) (by_key_nodup rows')]
  rintro ⟨k, a⟩
  constructor
  · intro hm
    apply mem_of_findKey
    rw [← by_key_findKey_perm h k]
    exact findKey_of_mem _ _ _ (by_key_keys_nodup rows) hm
  · intro hm
    apply mem_of_findKey
    rw [by_key_findKey_perm h k]
    exact findKey_of_mem _ _ _ (by_key_keys_nodup rows') hm

/-- Two lists that are permutations of each other, both sorted by key,
with no duplicate key, are equal: the serialized summary is canonical. -/
theorem sorted_nodupkeys_ext : ∀ l₁ l₂ : List (Key × Agg), l₁.Perm l₂ →
    l₁.Pairwise rowLe → l₂.Pairwise rowLe → (l₁.map Prod.fst).Nodup → l₁ = l₂ := by
  intro l₁
  induction l₁ with
  | nil =>
    intro l₂ hperm _ _ _
    exact hperm.nil_eq
  | cons p t ih =>
    intro l₂ hperm hs₁ hs₂ hn₁
    obtain ⟨k, a⟩ := p
    cases l₂ with
    | nil =>
      have := hperm.eq_nil
      simp at this
    | cons q t₂ =>
      obtain ⟨k', a'⟩ := q
      have hmem : ((k, a) : Key × Agg) ∈ (k', a') :: t₂ :=
        hperm.mem_iff.1 (List.mem_cons_self _ _)
      have hmem' : ((k', a') : Key × Agg) ∈ (k, a) :: t :=
        hperm.symm.mem_iff.1 (List.mem_cons_self _ _)
      have hk : k = k' := by
        rcases List.mem_cons.1 hmem with h1 | h1
        · injection h1 with hk _
        · rcases List.mem_cons.1 hmem' with h2 | h2
          · injection h2 with hk _
            exact hk.symm
          · have hle1 : keyLe k' k := (List.pairwise_cons.1 hs₂).1 _ h1
            have hle2 : keyLe k k' := (List.pairwise_cons.1 hs₁).1 _ h2
            exact keyLe_antisymm hle2 hle1
      subst hk
      have hn₁' : k ∉ t.map Prod.fst ∧ (t.map Prod.fst).Nodup := by
        rw [List.map_cons] at hn₁
        exact List.nodup_cons.1 hn₁
      have ha : a = a' := by
        rcases List.mem_cons.1 hmem' with h2 | h2
        · injection h2 with _ ha'
          exact ha'.symm
        · exact absurd (List.mem_map_of_mem Prod.fst h2) hn₁'.1
      subst ha
      have htail : t.Perm t₂ := hperm.cons_inv
      rw [ih t₂ htail (List.pairwise_cons.1 hs₁).2 (List.pairwise_cons.1 hs₂).2 hn₁'.2]

theorem summary_rows_sorted (rows : List LedgerEvent) :
    (summary_rows rows).Pairwise rowLe :=
  List.sorted_insertionSort rowLe (by_key rows)

theorem summary_rows_perm_by_key (rows : List LedgerEvent) :
    (summary_rows rows).Perm (by_key rows) :=
  List.perm_insertionSort rowLe (by_key rows)

theorem summary_rows_keys_nodup (rows : List LedgerEvent) :
    ((summary_rows rows).map Prod.fst).Nodup := by
  have hp := (summary_rows_perm_by_key rows).map Prod.fst
  exact hp.nodup_iff.2 (by_key_keys_nodup rows)

theorem summary_rows_perm_eq {rows rows' : List LedgerEvent} (h : rows.Perm rows') :
    summary_rows rows = summary_rows rows' := by
  apply sorted_nodupkeys_ext
  · exact (summary_rows_perm_by_key rows).trans
      ((by_key_perm h).trans (summary_rows_perm_by_key rows').symm)
  · exact summary_rows_sorted rows
  · exact summary_rows_sorted rows'
  · exact summary_rows_keys_nodup rows

/-! ## Pagination lemmas -/

theorem fundingFetchPure_empty (src : Option Nat → List BinanceIncome) (fuel : Nat)
    (start : Option Nat) (h : src start = []) :
    fundingFetchPure src (fuel + 1) start = ([], [start]) := by
  simp [fundingFetchPure, h]

theorem fundingFetchPure_short (src : Option Nat → List BinanceIncome) (fuel : Nat)
    (start : Option Nat) (h1 : src start ≠ []) (h2 : (src start).length < 1000) :
    fundingFetchPure src (fuel + 1) start = (src start, [start]) := by
  simp [fundingFetchPure, h1, h2]

theorem fundingFetchPure_full (src : Option Nat → List BinanceIncome) (fuel : Nat)
    (start : Option Nat) (h1 : src start ≠ []) (h2 : ¬(src start).length < 1000) :
    fundingFetchPure src (fuel + 1) start =
      (src start ++ (fundingFetchPure src fuel (some (((src start).getLast h1).time + 1))).1,
       start :: (fundingFetchPure src fuel (some (((src start).getLast h1).time + 1))).2) := by
  simp [fundingFetchPure, h1, h2]

theorem fundingFetch_pure_eq (src : Option Nat → List BinanceIncome) :
    ∀ (fuel : Nat) (start : Option Nat),
      fundingFetch (fun s => Except.ok (src s)) fuel start
        = .ok (fundingFetchPure src fuel start) := by
  intro fuel
  induction fuel with
  | zero => intro start; rfl
  | succ f ih =>
    intro start
    by_cases h1 : src start = []
    · rw [fundingFetchPure_empty src f start h1]
      simp [fundingFetch, h1]
    · by_cases h2 : (src start).length < 1000
      · rw [fundingFetchPure_short src f start h1 h2]
        simp [fundingFetch, h1, h2]
      · rw [fundingFetchPure_full src f start h1 h2]
        simp [fundingFetch, h1, h2, ih]

theorem fundingFetchPure_join (src : Option Nat → List BinanceIncome) :
    ∀ (fuel : Nat) (start : Option Nat),
      (fundingFetchPure src fuel start).1
        = ((fundingFetchPure src fuel start).2.map src).flatten := by
  intro fuel
  induction fuel with
  | zero => intro start; rfl
  | succ f ih =>
    intro start
    by_cases h1 : src start = []
    · rw [fundingFetchPure_empty src f start h1]
      simp [h1]
    · by_cases h2 : (src start).length < 1000
      · rw [fundingFetchPure_short src f start h1 h2]
        simp
      · rw [fundingFetchPure_full src f start h1 h2]
        simp [ih]

theorem fundingFetchPure_snd_head (src : Option Nat → List BinanceIncome) (fuel : Nat)
    (start : Option Nat) :
    (fundingFetchPure src fuel start).2 = [] ∨
      ∃ t2, (fundingFetchPure src fuel start).2 = start :: t2 := by
  cases fuel with
  | zero => exact Or.inl rfl
  | succ f =>
    by_cases h1 : src start = []
    · rw [fundingFetchPure_empty src f start h1]
      exact Or.inr ⟨[], rfl⟩
    · by_cases h2 : (src start).length < 1000
      · rw [fundingFetchPure_short src f start h1 h2]
        exact Or.inr ⟨[], rfl⟩
      · rw [fundingFetchPure_full src f start h1 h2]
        exact Or.inr ⟨_, rfl⟩

theorem fundingFetchPure_chain (src : Option Nat → List BinanceIncome) :
    ∀ (fuel : Nat) (start : Option Nat),
      (fundingFetchPure src fuel start).2.Chain'
        (fun a b => ∃ h : src a ≠ [], b = some (((src a).getLast h).time + 1)) := by
  intro fuel
  induction fuel with
  | zero => intro start; simp [fundingFetchPure]
  | succ f ih =>
    intro start
    by_cases h1 : src start = []
    · rw [fundingFetchPure_empty src f start h1]
      simp
    · by_cases h2 : (src start).length < 1000
      · rw [fundingFetchPure_short src f start h1 h2]
        simp
      · rw [fundingFetchPure_full src f start h1 h2]
        rw [List.chain'_cons']
        refine ⟨?_, ih _⟩
        intro y hy
        rcases fundingFetchPure_snd_head src f
            (some (((src start).getLast h1).time + 1)) with hh | ⟨t2, hh⟩
        · rw [hh] at hy
          simp at hy
        · rw [hh] at hy
          simp at hy
          exact ⟨h1, hy.symm⟩

theorem pairwise_le_getLast : ∀ (l : List BinanceIncome) (h : l ≠ []),
    l.Pairwise timeLe → ∀ x ∈ l, x.time ≤ (l.getLast h).time := by
  intro l
  induction l with
  | nil => intro h; exact absurd rfl h
  | cons a t iht =>
    intro h hp x hx
    cases t with
    | nil =>
      simp at hx
      subst hx
      simp [List.getLast]
    | cons b t2 =>
      rw [List.getLast_cons (by simp : (b :: t2) ≠ [])]
      rcases List.mem_cons.1 hx with h1 | h1
      · subst h1
        have hback : (b :: t2).getLast (by simp) ∈ b :: t2 := List.getLast_mem _
        exact (List.pairwise_cons.1 hp).1 _ hback
      · exact iht (by simp) (List.pairwise_cons.1 hp).2 x h1

/-- For a sorted finite history, one full page strictly advances the
cursor: at least 1000 records drop out of the remaining set. -/
theorem remaining_succ (hist : List BinanceIncome) (hs : hist.Pairwise timeLe)
    (start : Option Nat) (h2 : ¬(histSrc hist start).length < 1000)
    (h1 : histSrc hist start ≠ []) :
    remaining hist (some (((histSrc hist start).getLast h1).time + 1)) + 1000
      ≤ remaining hist start := by
  have hFs : (hist.filter (fun r => start.getD 0 ≤ r.time)).Pairwise timeLe :=
    hs.filter _
  have hlen : (histSrc hist start).length
      = min 1000 (hist.filter (fun r => start.getD 0 ≤ r.time)).length := by
    unfold histSrc
    exact List.length_take _ _
  have hlenF : 1000 ≤ (hist.filter (fun r => start.getD 0 ≤ r.time)).length := by
    rcases le_total 1000 (hist.filter (fun r => start.getD 0 ≤ r.time)).length with hh | hh
    · exact hh
    · rw [min_eq_right hh] at hlen
      omega
  have htake : (histSrc hist start).Pairwise timeLe := by
    unfold histSrc
    exact List.Pairwise.sublist (List.take_sublist _ _) hFs
  have hub : ∀ x ∈ histSrc hist start,
      x.time ≤ ((histSrc hist start).getLast h1).time :=
    pairwise_le_getLast _ h1 htake
  have hmemF : (histSrc hist start).getLast h1
      ∈ hist.filter (fun r => start.getD 0 ≤ r.time) := by
    have := List.getLast_mem h1
    unfold histSrc at this
    exact List.mem_of_mem_take this
  have hbase : start.getD 0 ≤ ((histSrc hist start).getLast h1).time := by
    have := (List.mem_filter.1 hmemF).2
    simpa using this
  set tl := ((histSrc hist start).getLast h1).time with htl
  have hqp : ∀ r ∈ hist,
      (decide (tl + 1 ≤ r.time) && decide (start.getD 0 ≤ r.time))
        = decide (tl + 1 ≤ r.time) := by
    intro r _
    by_cases hq : tl + 1 ≤ r.time
    · have hp : start.getD 0 ≤ r.time := le_trans hbase (by omega)
      simp [hq, hp]
    · simp [hq]
  have hsplit : hist.filter (fun r => tl + 1 ≤ r.time)
      = (hist.filter (fun r => start.getD 0 ≤ r.time)).filter
          (fun r => tl + 1 ≤ r.time) := by
    rw [List.filter_filter]
    exact (List.filter_congr hqp).symm
  have hdecomp : (hist.filter (fun r => start.getD 0 ≤ r.time)).filter
        (fun r => tl + 1 ≤ r.time)
      = ((hist.filter (fun r => start.getD 0 ≤ r.time)).drop 1000).filter
          (fun r => tl + 1 ≤ r.time) := by
    conv_lhs => rw [← List.take_append_drop 1000
      (hist.filter (fun r => start.getD 0 ≤ r.time))]
    rw [List.filter_append]
    have hnil : ((hist.filter (fun r => start.getD 0 ≤ r.time)).take 1000).filter
        (fun r => tl + 1 ≤ r.time) = [] := by
      rw [List.filter_eq_nil_iff]
      intro x hx
      have := hub x (by simpa [histSrc] using hx)
      simp
      omega
    rw [hnil, List.nil_append]
  have hlast : remaining hist (some (tl + 1))
      ≤ (hist.filter (fun r => start.getD 0 ≤ r.time)).length - 1000 := by
    unfold remaining
    simp only [Option.getD_some]
    rw [hsplit, hdecomp]
    calc (((hist.filter (fun r => start.getD 0 ≤ r.time)).drop 1000).filter
            (fun r => tl + 1 ≤ r.time)).length
        ≤ ((hist.filter (fun r => start.getD 0 ≤ r.time)).drop 1000).length :=
          List.length_filter_le _ _
      _ = (hist.filter (fun r => start.getD 0 ≤ r.time)).length - 1000 :=
          List.length_drop _ _
  unfold remaining at *
  omega

/-- Fuel irrelevance: once the fuel exceeds the number of requests needed
(one per 1000 remaining records, plus a final request), the fetch result
does not depend on the fuel — the loop terminates. -/
theorem fetch_stable (hist : List BinanceIncome) (hs : hist.Pairwise timeLe) :
    ∀ (N : Nat) (start : Option Nat) (fuel fuel' : Nat),
      remaining hist start / 1000 ≤ N →
      remaining hist start / 1000 < fuel →
      remaining hist start / 1000 < fuel' →
      fundingFetchPure (histSrc hist) fuel start
        = fundingFetchPure (histSrc hist) fuel' start := by
  intro N
  induction N with
  | zero =>
    intro start fuel fuel' hN hf hf'
    obtain ⟨f, rfl⟩ : ∃ f, fuel = f + 1 := ⟨fuel - 1, by omega⟩
    obtain ⟨f', rfl⟩ : ∃ f', fuel' = f' + 1 := ⟨fuel' - 1, by omega⟩
    by_cases h1 : histSrc hist start = []
    · rw [fundingFetchPure_empty _ _ _ h1, fundingFetchPure_empty _ _ _ h1]
    · have hlen : (histSrc hist start).length ≤ remaining hist start := by
        unfold histSrc remaining
        rw [List.length_take]
        exact min_le_right _ _
      have h2 : (histSrc hist start).length < 1000 := by omega
      rw [fundingFetchPure_short _ _ _ h1 h2, fundingFetchPure_short _ _ _ h1 h2]
  | succ n ih =>
    intro start fuel fuel' hN hf hf'
    obtain ⟨f, rfl⟩ : ∃ f, fuel = f + 1 := ⟨fuel - 1, by omega⟩
    obtain ⟨f', rfl⟩ : ∃ f', fuel' = f' + 1 := ⟨fuel' - 1, by omega⟩
    by_cases h1 : histSrc hist start = []
    · rw [fundingFetchPure_empty _ _ _ h1, fundingFetchPure_empty _ _ _ h1]
    · by_cases h2 : (histSrc hist start).length < 1000
      · rw [fundingFetchPure_short _ _ _ h1 h2, fundingFetchPure_short _ _ _ h1 h2]
      · rw [fundingFetchPure_full _ _ _ h1 h2, fundingFetchPure_full _ _ _ h1 h2]
        have hdec := remaining_succ hist hs start h2 h1
        have hrec := ih (some (((histSrc hist start).getLast h1).time + 1)) f f'
          (by omega) (by omega) (by omega)
        rw [hrec]

theorem getLast?_map_range' : ∀ n s : Nat,
    ((List.range' s (n + 1)).map mkRec).getLast? = some (mkRec (s + n)) := by
  intro n
  induction n with
  | zero =>
    intro s
    rw [List.range'_one]
    rfl
  | succ m ih =>
    intro s
    rw [List.range'_succ, List.map_cons]
    rw [List.range'_succ, List.map_cons]
    rw [List.getLast?_cons_cons]
    have h2 := ih (s + 1)
    rw [List.range'_succ, List.map_cons] at h2
    rw [h2]
    have : s + 1 + m = s + (m + 1) := by omega
    rw [this]

theorem pageSrc_getLast_time (s n : Nat) (hn : min 1000 (2400 - s) = n + 1)
    (h : pageSrc (some s) ≠ []) :
    ((pageSrc (some s)).getLast h).time = s + n := by
  have h1 : (pageSrc (some s)).getLast? = some (mkRec (s + n)) := by
    show ((List.range' s (min 1000 (2400 - s))).map mkRec).getLast? = _
    rw [hn]
    exact getLast?_map_range' n s
  rw [List.getLast?_eq_getLast _ h] at h1
  have := Option.some.inj h1
  rw [this]
  rfl

theorem pageSrc_length (s : Nat) :
    (pageSrc (some s)).length = min 1000 (2400 - s) := by
  show ((List.range' s (min 1000 (2400 - s))).map mkRec).length = _
  rw [List.length_map, List.length_range']

/-- Concrete run of the pagination loop over the synthetic 2400-record
source: three requests, pages of sizes 1000, 1000 and 400. -/
theorem fundingFetchPure_pageSrc :
    fundingFetchPure pageSrc 4 (some 0)
      = (pageSrc (some 0) ++ (pageSrc (some 1000) ++ pageSrc (some 2000)),
         [some 0, some 1000, some 2000]) := by
  have hne1 : pageSrc (some 0) ≠ [] := by
    intro hc
    have := congrArg List.length hc
    rw [pageSrc_length] at this
    simp at this
  have hlen1 : ¬(pageSrc (some 0)).length < 1000 := by
    rw [pageSrc_length]
    norm_num
  rw [fundingFetchPure_full pageSrc 3 (some 0) hne1 hlen1]
  have hc1 : ((pageSrc (some 0)).getLast hne1).time + 1 = 1000 := by
    rw [pageSrc_getLast_time 0 999 (by norm_num) hne1]
  rw [hc1]
  have hne2 : pageSrc (some 1000) ≠ [] := by
    intro hc
    have := congrArg List.length hc
    rw [pageSrc_length] at this
    simp at this
  have hlen2 : ¬(pageSrc (some 1000)).length < 1000 := by
    rw [pageSrc_length]
    norm_num
  rw [fundingFetchPure_full pageSrc 2 (some 1000) hne2 hlen2]
  have hc2 : ((pageSrc (some 1000)).getLast hne2).time + 1 = 2000 := by
    rw [pageSrc_getLast_time 1000 999 (by norm_num) hne2]
  rw [hc2]
  have hne3 : pageSrc (some 2000) ≠ [] := by
    intro hc
    have := congrArg List.length hc
    rw [pageSrc_length] at this
    simp at this
  have hlen3 : (pageSrc (some 2000)).length < 1000 := by
    rw [pageSrc_length]
    norm_num
  rw [fundingFetchPure_short pageSrc 1 (some 2000) hne3 hlen3]

/-! ## Lemmas on occurrence deletion (the `replace` calls) -/

theorem delOcc_nil (pat : List Char) : delOcc pat [] = [] := by
  simp [delOcc]

theorem delOcc_of_not_contains (pat : List Char) :
    ∀ s : List Char, containsPat pat s = false → delOcc pat s = s := by
  intro s
  induction s with
  | nil => intro _; exact delOcc_nil pat
  | cons c rest ih =>
    intro h
    simp [containsPat] at h
    simp only [delOcc]
    rw [if_neg (fun hc => h.1 hc.2), ih h.2]

theorem delOcc_self (pat : List Char) (h : pat ≠ []) : delOcc pat pat = [] := by
  cases pat with
  | nil => exact absurd rfl h
  | cons c rest =>
    simp only [delOcc]
    rw [if_pos ⟨by simp, List.take_length (c :: rest)⟩]
    rw [List.drop_length]
    exact delOcc_nil _

theorem delOcc_append_no_cross (pat : List Char) :
    ∀ base rest : List Char, containsPat pat base = false →
      (∀ b2 : List Char, b2 ≠ [] → b2.length < pat.length → b2 <:+ base →
        (b2 ++ rest).take pat.length ≠ pat) →
      delOcc pat (base ++ rest) = base ++ delOcc pat rest := by
  intro base
  induction base with
  | nil => intro rest _ _; simp
  | cons c b' ih =>
    intro rest hb hcross
    simp [containsPat] at hb
    have hcond : ¬((c :: (b' ++ rest)).take pat.length = pat) := by
      intro ht
      by_cases hlen : pat.length ≤ (c :: b').length
      · rw [← List.cons_append, List.take_append_of_le_length hlen] at ht
        exact hb.1 ht
      · push_neg at hlen
        exact hcross (c :: b') (by simp) hlen List.suffix_rfl
          (by rw [List.cons_append]; exact ht)
    rw [List.cons_append]
    simp only [delOcc]
    rw [if_neg (fun hc => hcond hc.2)]
    rw [ih rest hb.2
      (fun b2 hne hlen hsuf => hcross b2 hne hlen (hsuf.trans (List.suffix_cons c b')))]
    rw [List.cons_append]

theorem cross_impossible (pat rest : List Char)
    (hcond : ∀ k, 1 ≤ k → k < pat.length → pat.drop k ≠ rest.take (pat.length - k)) :
    ∀ b2 : List Char, b2 ≠ [] → b2.length < pat.length →
      (b2 ++ rest).take pat.length ≠ pat := by
  intro b2 hne hlen ht
  rw [List.take_append_eq_append_take, List.take_of_length_le (le_of_lt hlen)] at ht
  have hdrop := congrArg (List.drop b2.length) ht
  rw [List.drop_left] at hdrop
  have hpos : 0 < b2.length := List.length_pos.2 hne
  exact hcond b2.length (by omega) hlen hdrop.symm

theorem usdt_usdt_borders : ∀ k, 1 ≤ k → k < ("USDT".data).length →
    ("USDT".data).drop k ≠ ("USDT".data).take (("USDT".data).length - k) := by
  intro k hk1 hk2
  have h4 : ("USDT".data).length = 4 := rfl
  rw [h4] at hk2
  rcases (by omega : k = 1 ∨ k = 2 ∨ k = 3) with rfl | rfl | rfl <;> decide

theorem usdt_usdc_borders : ∀ k, 1 ≤ k → k < ("USDT".data).length →
    ("USDT".data).drop k ≠ ("USDC".data).take (("USDT".data).length - k) := by
  intro k hk1 hk2
  have h4 : ("USDT".data).length = 4 := rfl
  rw [h4] at hk2
  rcases (by omega : k = 1 ∨ k = 2 ∨ k = 3) with rfl | rfl | rfl <;> decide

theorem usdc_usdc_borders : ∀ k, 1 ≤ k → k < ("USDC".data).length →
    ("USDC".data).drop k ≠ ("USDC".data).take (("USDC".data).length - k) := by
  intro k hk1 hk2
  have h4 : ("USDC".data).length = 4 := rfl
  rw [h4] at hk2
  rcases (by omega : k = 1 ∨ k = 2 ∨ k = 3) with rfl | rfl | rfl <;> decide

/-- On a symbol made of a settlement-free base followed by one settlement
suffix, deleting every occurrence of USDT and then USDC (what the code
does) coincides with stripping the suffix. -/
theorem strip_settle_suffix (base : List Char)
    (h1 : containsPat "USDT".data base = false)
    (h2 : containsPat "USDC".data base = false) :
    strip_settle (String.mk (base ++ "USDT".data)) = String.mk base ∧
    strip_settle (String.mk (base ++ "USDC".data)) = String.mk base := by
  constructor
  · unfold strip_settle
    rw [show (String.mk (base ++ "USDT".data)).data = base ++ "USDT".data from rfl]
    rw [delOcc_append_no_cross "USDT".data base "USDT".data h1
      (fun b2 hne hlen _ => cross_impossible _ _ usdt_usdt_borders b2 hne hlen)]
    rw [delOcc_self "USDT".data (by decide), List.append_nil]
    rw [delOcc_of_not_contains "USDC".data base h2]
  · unfold strip_settle
    rw [show (String.mk (base ++ "USDC".data)).data = base ++ "USDC".data from rfl]
    rw [delOcc_append_no_cross "USDT".data base "USDC".data h1
      (fun b2 hne hlen _ => cross_impossible _ _ usdt_usdc_borders b2 hne hlen)]
    rw [delOcc_of_not_contains "USDT".data "USDC".data (by decide)]
    rw [delOcc_append_no_cross "USDC".data base "USDC".data h2
      (fun b2 hne hlen _ => cross_impossible _ _ usdc_usdc_borders b2 hne hlen)]
    rw [delOcc_self "USDC".data (by decide), List.append_nil]

/-! ## Lemmas on the Bybit normalizer -/

theorem normalize_bybit_length (ps : List BybitPosition) :
    (normalize_bybit ps).length ≤ ps.length := by
  induction ps with
  | nil => simp [normalize_bybit]
  | cons pos rest ih =>
    simp only [normalize_bybit]
    split_ifs with h1 h2 h3
    · exact le_trans ih (Nat.le_succ _)
    · exact le_trans ih (Nat.le_succ _)
    · simpa using Nat.succ_le_succ ih
    · simpa using Nat.succ_le_succ ih

theorem normalize_bybit_asset (ps : List BybitPosition) :
    ∀ e ∈ normalize_bybit ps, e.asset = strip_settle e.symbol ∧ e.type = "realized_pnl" := by
  induction ps with
  | nil => simp [normalize_bybit]
  | cons pos rest ih =>
    intro e he
    simp only [normalize_bybit] at he
    split_ifs at he with h1 h2 h3
    · exact ih e he
    · exact ih e he
    · rcases List.mem_cons.1 he with h4 | h4
      · subst h4
        exact ⟨rfl, rfl⟩
      · exact ih e h4
    · rcases List.mem_cons.1 he with h4 | h4
      · subst h4
        exact ⟨rfl, rfl⟩
      · exact ih e h4

/-! ## Exactness of decimal arithmetic -/

theorem Dec.val_add (a b : Dec) : (a + b).val = a.val + b.val := by
  obtain ⟨na, sa⟩ := a
  obtain ⟨nb, sb⟩ := b
  show (Dec.add ⟨na, sa⟩ ⟨nb, sb⟩).val = Dec.val ⟨na, sa⟩ + Dec.val ⟨nb, sb⟩
  unfold Dec.add Dec.val
  simp only
  have h10 : (10 : ℚ) ≠ 0 := by norm_num
  have e1 : (10 : ℚ) ^ (max sa sb - sa) = 10 ^ max sa sb / 10 ^ sa := by
    rw [eq_div_iff (pow_ne_zero _ h10), ← pow_add]
    congr 1
    omega
  have e2 : (10 : ℚ) ^ (max sa sb - sb) = 10 ^ max sa sb / 10 ^ sb := by
    rw [eq_div_iff (pow_ne_zero _ h10), ← pow_add]
    congr 1
    omega
  push_cast
  rw [e1, e2]
  field_simp
  ring

theorem Dec.val_zero : (0 : Dec).val = 0 := by
  show Dec.val ⟨0, 0⟩ = 0
  simp [Dec.val]

theorem dec_sum_val : ∀ l : List Dec, l.sum.val = (l.map Dec.val).sum := by
  intro l
  induction l with
  | nil => simpa using Dec.val_zero
  | cons d t ih =>
    rw [List.sum_cons, List.map_cons, List.sum_cons, Dec.val_add, ih]

/-- Unfolding of `normalize_bybit` on a record that passes the size and
symbol filters. -/
theorem normalize_bybit_cons_ok (pos : BybitPosition) (rest : List BybitPosition)
    (sz sym : String) (hsz : pos.size = some sz)
    (h1 : sz ≠ "") (h2 : sz ≠ "0") (h3 : sz ≠ "0.0")
    (hsym : pos.symbol = some sym) (h4 : sym ≠ "") :
    normalize_bybit (pos :: rest) =
      { exchange := "Bybit", symbol := sym, asset := strip_settle sym,
        amount := (parseDecimal (if pos.curRealisedPnl.getD "" = "" then "0"
          else pos.curRealisedPnl.getD "")).getD 0,
        time := pos.updatedTime.getD 0, type := "realized_pnl" }
        :: normalize_bybit rest := by
  simp only [normalize_bybit, hsz, hsym, Option.getD_some]
  rw [if_neg (by simp [h1, h2, h3]), if_neg h4]

/-! ## Claim theorems -/

/-- Claim C2: for every list of canonical events, the aggregator
partitions the events by the key (exchange, symbol, asset, kind) and for
each partition computes total as the exact-decimal sum of amount, count as
the number of contributing events, and first/last as the minimum/maximum
of time over the partition (the fold used in `aggSpec` is shown to be that
minimum/maximum); in particular, for the two events (Binance, BTC, USDT,
funding, +1.5, t=100) and (Binance, BTC, USDT, funding, -0.5, t=200) the
summary entry for that key has total 1.0, count 2, first 100, last 200. -/
theorem c2_aggregation :
    (∀ (rows : List LedgerEvent) (k : Key),
        findKey (by_key rows) k = aggSpec (rows.filter (fun e => keyOf e = k))) ∧
    (∀ (e : LedgerEvent) (es : List LedgerEvent),
        minTimes e.time es ∈ (e :: es).map LedgerEvent.time ∧
        ∀ s ∈ (e :: es).map LedgerEvent.time, minTimes e.time es ≤ s) ∧
    (∀ (e : LedgerEvent) (es : List LedgerEvent),
        maxTimes e.time es ∈ (e :: es).map LedgerEvent.time ∧
        ∀ s ∈ (e :: es).map LedgerEvent.time, s ≤ maxTimes e.time es) ∧
    (findKey (by_key [evA, evB]) ("Binance", "BTC", "USDT", "funding")
      = some { total := ⟨10, 1⟩, first := 100, last := 200, count := 2 } ∧
      (⟨10, 1⟩ : Dec).val = 1) := by
  refine ⟨by_key_lookup, ?_, ?_, by decide, by norm_num [Dec.val]⟩
  · intro e es
    exact ⟨by simpa using minTimes_mem es e.time,
      fun s hs => minTimes_le es e.time s (by simpa using hs)⟩
  · intro e es
    exact ⟨by simpa using maxTimes_mem es e.time,
      fun s hs => maxTimes_ge es e.time s (by simpa using hs)⟩

/-- Witness for claim C2 at a concrete input: the minimum clause applied
to the two concrete events. -/
theorem c2_aggregation_witness :
    minTimes evA.time [evB] ≤ evB.time :=
  (c2_aggregation.2.1 evA [evB]).2 evB.time (by decide)

/-- Claim C10: a key appears in the aggregated summary iff some input
event has that key, and every summary row satisfies count ≥ 1,
first ≤ last, and first/last are times of events of that partition. -/
theorem c10_summary_invariants : ∀ rows : List LedgerEvent,
    (∀ k : Key, (∃ a, (k, a) ∈ summary_rows rows) ↔ ∃ e ∈ rows, keyOf e = k) ∧
    (∀ (k : Key) (a : Agg), (k, a) ∈ summary_rows rows →
      1 ≤ a.count ∧ a.first ≤ a.last ∧
      (∃ e ∈ rows, keyOf e = k ∧ e.time = a.first) ∧
      (∃ e ∈ rows, keyOf e = k ∧ e.time = a.last)) := by
  intro rows
  have hmem : ∀ (k : Key) (a : Agg),
      (k, a) ∈ summary_rows rows ↔ findKey (by_key rows) k = some a := by
    intro k a
    constructor
    · intro h
      exact findKey_of_mem _ _ _ (by_key_keys_nodup rows)
        ((summary_rows_perm_by_key rows).mem_iff.1 h)
    · intro h
      exact (summary_rows_perm_by_key rows).symm.mem_iff.1 (mem_of_findKey _ _ _ h)
  constructor
  · intro k
    constructor
    · rintro ⟨a, ha⟩
      have h2 := (hmem k a).1 ha
      rw [by_key_lookup] at h2
      cases hg : rows.filter (fun e => keyOf e = k) with
      | nil => rw [hg] at h2; simp [aggSpec] at h2
      | cons e0 es =>
        have he0 : e0 ∈ rows.filter (fun e => keyOf e = k) := by
          rw [hg]; exact List.mem_cons_self _ _
        have hf := List.mem_filter.1 he0
        exact ⟨e0, hf.1, by simpa using hf.2⟩
    · rintro ⟨e, he, hke⟩
      have hmf : e ∈ rows.filter (fun x => keyOf x = k) :=
        List.mem_filter.2 ⟨he, by simp [hke]⟩
      cases hg : rows.filter (fun x => keyOf x = k) with
      | nil => rw [hg] at hmf; simp at hmf
      | cons e0 es =>
        exact ⟨_, (hmem k _).2 (by rw [by_key_lookup, hg]; rfl)⟩
  · intro k a hka
    have h2 := (hmem k a).1 hka
    rw [by_key_lookup] at h2
    cases hg : rows.filter (fun e => keyOf e = k) with
    | nil => rw [hg] at h2; simp [aggSpec] at h2
    | cons e0 es =>
      rw [hg] at h2
      have ha : a = { total := ((e0 :: es).map LedgerEvent.amount).sum,
                      first := minTimes e0.time es,
                      last := maxTimes e0.time es,
                      count := (e0 :: es).length } := by
        simpa [aggSpec] using h2.symm
      have hsub : ∀ x ∈ e0 :: es, x ∈ rows ∧ keyOf x = k := by
        intro x hx
        have : x ∈ rows.filter (fun e => keyOf e = k) := by rw [hg]; exact hx
        have hf := List.mem_filter.1 this
        exact ⟨hf.1, by simpa using hf.2⟩
      refine ⟨?_, ?_, ?_, ?_⟩
      · rw [ha]; simp
      · rw [ha]
        exact le_trans (minTimes_le es e0.time e0.time (List.mem_cons_self _ _))
          (maxTimes_ge es e0.time e0.time (List.mem_cons_self _ _))
      · rcases List.mem_cons.1 (minTimes_mem es e0.time) with h3 | h3
        · exact ⟨e0, (hsub e0 (List.mem_cons_self _ _)).1,
            (hsub e0 (List.mem_cons_self _ _)).2, by rw [ha]; exact h3.symm⟩
        · obtain ⟨x, hx, hxt⟩ := List.mem_map.1 h3
          exact ⟨x, (hsub x (List.mem_cons_of_mem _ hx)).1,
            (hsub x (List.mem_cons_of_mem _ hx)).2, by rw [ha]; exact hxt⟩
      · rcases List.mem_cons.1 (maxTimes_mem es e0.time) with h3 | h3
        · exact ⟨e0, (hsub e0 (List.mem_cons_self _ _)).1,
            (hsub e0 (List.mem_cons_self _ _)).2, by rw [ha]; exact h3.symm⟩
        · obtain ⟨x, hx, hxt⟩ := List.mem_map.1 h3
          exact ⟨x, (hsub x (List.mem_cons_of_mem _ hx)).1,
            (hsub x (List.mem_cons_of_mem _ hx)).2, by rw [ha]; exact hxt⟩

/-- Witness for claim C10 at a concrete input: the one summary row of the
two concrete events satisfies the invariants. -/
theorem c10_summary_invariants_witness :
    1 ≤ (2 : Nat) ∧ (100 : Nat) ≤ 200 ∧
      (∃ e ∈ [evA, evB], keyOf e = ("Binance", "BTC", "USDT", "funding") ∧ e.time = 100) ∧
      (∃ e ∈ [evA, evB], keyOf e = ("Binance", "BTC", "USDT", "funding") ∧ e.time = 200) :=
  (c10_summary_invariants [evA, evB]).2 ("Binance", "BTC", "USDT", "funding")
    { total := ⟨10, 1⟩, first := 100, last := 200, count := 2 } (by decide)

/-- Claim C4: if the request for one settlement partition raises or
returns a non-success retCode while the other succeeds with records, the
snapshot fetch does not abort and returns exactly the records of the
successful partition. -/
theorem c4_partition_isolation :
    ∀ (req : String → Except String BybitResp) (ps : List BybitPosition),
      (((∃ e, req "USDT" = .error e) ∨ ∃ d, req "USDT" = .ok d ∧ d.retCode ≠ some 0) →
        (∃ d, req "USDC" = .ok d ∧ d.retCode = some 0 ∧
          ((d.result.getD { list := none }).list.getD []) = ps) →
        get_bybit_realized_raw req = ps) ∧
      (((∃ e, req "USDC" = .error e) ∨ ∃ d, req "USDC" = .ok d ∧ d.retCode ≠ some 0) →
        (∃ d, req "USDT" = .ok d ∧ d.retCode = some 0 ∧
          ((d.result.getD { list := none }).list.getD []) = ps) →
        get_bybit_realized_raw req = ps) := by
  intro req ps
  constructor
  · rintro hfail ⟨d, hd, hret, hlist⟩
    have h1 : bybit_partition req "USDT" = [] := by
      rcases hfail with ⟨e, he⟩ | ⟨d', hd', hret'⟩
      · simp [bybit_partition, he]
      · simp [bybit_partition, hd', hret']
    have h2 : bybit_partition req "USDC" = ps := by
      simp [bybit_partition, hd, hret, hlist]
    simp [get_bybit_realized_raw, h1, h2]
  · rintro hfail ⟨d, hd, hret, hlist⟩
    have h1 : bybit_partition req "USDC" = [] := by
      rcases hfail with ⟨e, he⟩ | ⟨d', hd', hret'⟩
      · simp [bybit_partition, he]
      · simp [bybit_partition, hd', hret']
    have h2 : bybit_partition req "USDT" = ps := by
      simp [bybit_partition, hd, hret, hlist]
    simp [get_bybit_realized_raw, h1, h2]

/-- Witness for claim C4 at a concrete input: one partition fails, the
other succeeds with three records. -/
theorem c4_partition_isolation_witness :
    get_bybit_realized_raw
      (fun settle => if settle = "USDT" then .error "boom" else .ok threeRecsResp)
      = [badPnlPos, badPnlPos, badPnlPos] :=
  (c4_partition_isolation _ [badPnlPos, badPnlPos, badPnlPos]).1
    (Or.inl ⟨"boom", rfl⟩) ⟨threeRecsResp, rfl, rfl, rfl⟩

/-- Counterexample to claim C5 as stated: `normalize_binance` has no
guard around the decimal parse, so a record whose income field is present
but unparseable raises instead of being replaced by zero. -/
theorem c5_counterexample :
    badIncome.income = some "abc" ∧ parseDecimal "abc" = none ∧
    normalize_binance [badIncome] = .error "decimal.InvalidOperation" :=
  ⟨rfl, by decide, rfl⟩

/-- Claim C5 amended: the venue-B normalizer substitutes a zero decimal
for an unparseable realized-PnL field and never raises, but the venue-A
normalizer raises on the first FUNDING_FEE record whose income field is
unparseable, aborting normalization. -/
theorem c5_amended_malformed_amount :
    (∀ (pos : BybitPosition) (s : String), pos.curRealisedPnl = some s →
        parseDecimal s = none → ∀ e ∈ normalize_bybit [pos], e.amount = 0) ∧
    (∀ (r : BinanceIncome) (rest : List BinanceIncome),
        r.incomeType = some "FUNDING_FEE" →
        parseDecimal (r.income.getD "0") = none →
        normalize_binance (r :: rest) = .error "decimal.InvalidOperation") := by
  constructor
  · intro pos s hc hp e he
    simp only [normalize_bybit] at he
    split_ifs at he with h1 h2 h3
    · simp [normalize_bybit] at he
    · simp [normalize_bybit] at he
    · rcases List.mem_cons.1 he with h4 | h4
      · subst h4
        show (parseDecimal "0").getD 0 = 0
        decide
      · simp [normalize_bybit] at h4
    · rcases List.mem_cons.1 he with h4 | h4
      · subst h4
        show (parseDecimal (pos.curRealisedPnl.getD "")).getD 0 = 0
        rw [hc, Option.getD_some, hp]
        rfl
      · simp [normalize_bybit] at h4
  · intro r rest htype hparse
    simp [normalize_binance, htype, hparse]

/-- Witness for claim C5 amended: the bybit event built from an
unparseable PnL string has amount zero, and the binance normalizer
rejects the unparseable record. -/
theorem c5_amended_malformed_amount_witness :
    ({ exchange := "Bybit", symbol := "BTCUSDT", asset := strip_settle "BTCUSDT",
       amount := (parseDecimal (if badPnlPos.curRealisedPnl.getD "" = "" then "0"
         else badPnlPos.curRealisedPnl.getD "")).getD 0,
       time := badPnlPos.updatedTime.getD 0,
       type := "realized_pnl" } : LedgerEvent).amount = 0 ∧
    normalize_binance [badIncome] = .error "decimal.InvalidOperation" := by
  have hlist := normalize_bybit_cons_ok badPnlPos [] "1" "BTCUSDT" rfl
    (by decide) (by decide) (by decide) rfl (by decide)
  refine ⟨?_, c5_amended_malformed_amount.2 badIncome [] rfl (by decide)⟩
  refine c5_amended_malformed_amount.1 badPnlPos "abc" rfl (by decide) _ ?_
  rw [hlist]
  exact List.mem_cons_self _ _

/-- Counterexample to claim C6 as stated: a position with nonzero size
"0.5" but no symbol field is not included in the normalized output. -/
theorem c6_counterexample :
    noSymbolPos.size = some "0.5" ∧ normalize_bybit [noSymbolPos] = [] :=
  ⟨rfl, by decide⟩

/-- Claim C6 amended: the normalizer excludes a position whose size field
is absent, empty, "0" or "0.0"; it includes a position with nonzero size
such as "0.5" as one realized_pnl event provided its symbol field is
present and non-empty; the number of output events never exceeds the
number of input positions. -/
theorem c6_closed_position_filter :
    (∀ (pos : BybitPosition) (rest : List BybitPosition),
        pos.size = none ∨ pos.size = some "" ∨ pos.size = some "0" ∨
          pos.size = some "0.0" →
        normalize_bybit (pos :: rest) = normalize_bybit rest) ∧
    (∀ (pos : BybitPosition) (sym : String), pos.size = some "0.5" →
        pos.symbol = some sym → sym ≠ "" →
        ∃ e, normalize_bybit [pos] = [e] ∧ e.type = "realized_pnl" ∧ e.symbol = sym) ∧
    (∀ ps : List BybitPosition, (normalize_bybit ps).length ≤ ps.length) := by
  refine ⟨?_, ?_, normalize_bybit_length⟩
  · intro pos rest h
    rcases h with h | h | h | h <;> simp [normalize_bybit, h]
  · intro pos sym hsz hsym hne
    rw [normalize_bybit_cons_ok pos [] "0.5" sym hsz (by decide) (by decide) (by decide)
      hsym hne]
    exact ⟨_, rfl, rfl, rfl⟩

/-- Witness for claim C6 amended at concrete inputs. -/
theorem c6_closed_position_filter_witness :
    normalize_bybit [zeroSizePos] = normalize_bybit [] ∧
    (∃ e, normalize_bybit [halfSizePos] = [e] ∧
      e.type = "realized_pnl" ∧ e.symbol = "BTCUSDT") :=
  ⟨c6_closed_position_filter.1 zeroSizePos [] (Or.inr (Or.inr (Or.inl rfl))),
   c6_closed_position_filter.2.1 halfSizePos "BTCUSDT" rfl rfl (by decide)⟩

/-- Counterexample to claim C8 as stated: the code removes every
occurrence of USDT and USDC from the symbol, not only a trailing
settlement suffix, so the symbol "USDTBTC" yields asset "BTC" although it
has no settlement suffix to strip. -/
theorem c8_counterexample :
    (normalize_bybit [usdtPrefixPos]).map (fun e => e.asset) = ["BTC"] ∧
    suffixStrip "USDTBTC" = "USDTBTC" ∧ ("BTC" : String) ≠ "USDTBTC" := by
  refine ⟨?_, by decide, by decide⟩
  rw [normalize_bybit_cons_ok usdtPrefixPos [] "1" "USDTBTC" rfl
    (by decide) (by decide) (by decide) rfl (by decide)]
  simp only [List.map_cons]
  rw [show normalize_bybit [] = [] from rfl]
  simp only [List.map_nil]
  congr 1
  simp [strip_settle, delOcc]

/-- Claim C8 amended: the normalizer derives the asset by deleting every
occurrence of "USDT" and then every occurrence of "USDC" from the symbol
(`strip_settle`); on a symbol made of a settlement-free base followed by
one settlement suffix — the shape of real instrument symbols such as
"BTCUSDT" — this coincides with stripping the suffix. -/
theorem c8_settlement_strip :
    (∀ (ps : List BybitPosition) (e : LedgerEvent), e ∈ normalize_bybit ps →
        e.asset = strip_settle e.symbol) ∧
    (∀ base : List Char, containsPat "USDT".data base = false →
        containsPat "USDC".data base = false →
        strip_settle (String.mk (base ++ "USDT".data)) = String.mk base ∧
        strip_settle (String.mk (base ++ "USDC".data)) = String.mk base) := by
  constructor
  · intro ps e he
    exact (normalize_bybit_asset ps e he).1
  · intro base h1 h2
    exact strip_settle_suffix base h1 h2

/-- Witness for claim C8 amended: the symbol BTCUSDT yields asset BTC. -/
theorem c8_settlement_strip_witness :
    strip_settle (String.mk ("BTC".data ++ "USDT".data)) = String.mk "BTC".data ∧
    strip_settle (String.mk ("BTC".data ++ "USDC".data)) = String.mk "BTC".data :=
  c8_settlement_strip.2 "BTC".data (by decide) (by decide)

/-- Claim C9: amounts are exact decimals, never binary floating point:
the aggregated total of every partition is the exact decimal sum of the
partition amounts, and its rational value is exactly the rational sum of
the amount values (no rounding drift); in particular three events of
amount 0.00000001 produce a summary total formatted as 0.0000000300 at
the fixed 10-decimal-place output precision. -/
theorem c9_decimal_exactness :
    (∀ (rows : List LedgerEvent) (k : Key) (a : Agg),
        findKey (by_key rows) k = some a →
        a.total = ((rows.filter (fun e => keyOf e = k)).map LedgerEvent.amount).sum ∧
        a.total.val
          = ((rows.filter (fun e => keyOf e = k)).map (fun e => e.amount.val)).sum) ∧
    ((normalize_binance tinyIncomes).map
        (fun evs => (summary_rows evs).map (fun p => formatFixed10 p.2.total))
      = .ok ["0.0000000300"]) := by
  constructor
  · intro rows k a ha
    rw [by_key_lookup] at ha
    cases hg : rows.filter (fun e => keyOf e = k) with
    | nil => rw [hg] at ha; simp [aggSpec] at ha
    | cons e0 es =>
      rw [hg] at ha
      have ha2 : a = { total := ((e0 :: es).map LedgerEvent.amount).sum,
                       first := minTimes e0.time es,
                       last := maxTimes e0.time es,
                       count := (e0 :: es).length } := by
        simpa [aggSpec] using ha.symm
      have ht : a.total = ((e0 :: es).map LedgerEvent.amount).sum := by rw [ha2]
      refine ⟨ht, ?_⟩
      rw [ht, dec_sum_val, List.map_map]
      rfl
  · rfl

/-- Witness for claim C9 at a concrete input: the aggregate of the single
concrete event. -/
theorem c9_decimal_exactness_witness :
    ({ total := ⟨15, 1⟩, first := 100, last := 100, count := 1 } : Agg).total
        = (([evA].filter (fun e => keyOf e = ("Binance", "BTC", "USDT", "funding"))).map
            LedgerEvent.amount).sum ∧
    ({ total := ⟨15, 1⟩, first := 100, last := 100, count := 1 } : Agg).total.val
        = (([evA].filter (fun e => keyOf e = ("Binance", "BTC", "USDT", "funding"))).map
            (fun e => e.amount.val)).sum :=
  c9_decimal_exactness.1 [evA] ("Binance", "BTC", "USDT", "funding")
    { total := ⟨15, 1⟩, first := 100, last := 100, count := 1 } (by decide)

/-- Claim C3: the serialized summary output is identical on any
permutation of the input events, and the serialized summary rows are
sorted in ascending lexicographic order of the key (exchange, then
symbol, then asset, then kind). -/
theorem c3_deterministic_ordering :
    ∀ rows rows' : List LedgerEvent, rows.Perm rows' →
      summary_lines rows = summary_lines rows' ∧
      (summary_rows rows).Pairwise (fun p q => keyLe p.1 q.1) := by
  intro rows rows' h
  constructor
  · unfold summary_lines
    rw [summary_rows_perm_eq h]
  · exact List.Pairwise.imp (fun hh => hh) (summary_rows_sorted rows)

/-- Witness for claim C3 at a concrete input: two events with different
keys in both orders. -/
theorem c3_deterministic_ordering_witness :
    summary_lines [evA, evC] = summary_lines [evC, evA] ∧
    (summary_rows [evA, evC]).Pairwise (fun p q => keyLe p.1 q.1) :=
  c3_deterministic_ordering [evA, evC] [evC, evA] (List.Perm.swap evC evA [])

/-- Claim C7: if the Bybit (secondary venue) credentials are missing the
run continues and produces output with zero Bybit events; if the Binance
(primary venue) credentials are missing the run aborts with an error
before producing output. -/
theorem c7_missing_credentials :
    (∀ (cfg : Config) (bv : Option Nat → Except String (List BinanceIncome))
        (byv : String → Except String BybitResp) (fuel : Nat),
        cfg.bybitKey = "" ∨ cfg.bybitSecret = "" →
        normalize_bybit (get_bybit_realized_raw (bybitReq cfg byv)) = [] ∧
        main_run cfg bv byv fuel =
          (match get_binance_funding (binanceReq cfg bv) fuel (some START_MS) with
           | .error e => .error e
           | .ok raw =>
             match normalize_binance raw with
             | .error e => .error e
             | .ok n => .ok (summary_lines n, details_lines n))) ∧
    (∀ (cfg : Config) (bv : Option Nat → Except String (List BinanceIncome))
        (byv : String → Except String BybitResp) (fuel : Nat),
        cfg.binanceKey = "" ∨ cfg.binanceSecret = "" →
        main_run cfg bv byv (fuel + 1) = .error binanceCredsMsg) := by
  constructor
  · intro cfg bv byv fuel hmiss
    have hreq : ∀ settle, bybitReq cfg byv settle = .error bybitCredsMsg := by
      intro settle
      unfold bybitReq
      rcases hmiss with h | h <;> simp [h]
    have hraw : get_bybit_realized_raw (bybitReq cfg byv) = [] := by
      simp [get_bybit_realized_raw, bybit_partition, hreq]
    refine ⟨by rw [hraw]; rfl, ?_⟩
    unfold main_run
    rw [hraw]
    cases hb : get_binance_funding (binanceReq cfg bv) fuel (some START_MS) with
    | error e => rfl
    | ok raw =>
      dsimp only
      cases hn : normalize_binance raw with
      | error e => rfl
      | ok n => simp [normalize_bybit]
  · intro cfg bv byv fuel hmiss
    have hreq : binanceReq cfg bv (some START_MS) = .error binanceCredsMsg := by
      unfold binanceReq
      rcases hmiss with h | h <;> simp [h]
    unfold main_run get_binance_funding
    simp [fundingFetch, hreq, Except.map]

/-- Witness for claim C7 at concrete inputs: a configuration without
Bybit credentials yields zero Bybit events, and a configuration without
Binance credentials aborts the run with the credentials error. -/
theorem c7_missing_credentials_witness :
    normalize_bybit (get_bybit_realized_raw (bybitReq cfgNoBybit emptyBybitVenue)) = [] ∧
    main_run cfgNoBinance emptyBinanceVenue emptyBybitVenue 1 = .error binanceCredsMsg :=
  ⟨(c7_missing_credentials.1 cfgNoBybit emptyBinanceVenue emptyBybitVenue 1
      (Or.inl rfl)).1,
   c7_missing_credentials.2 cfgNoBinance emptyBinanceVenue emptyBybitVenue 0
     (Or.inl rfl)⟩

/-- Claim C1: the exhaustive paginated fetch answers requests one page at
a time and returns exactly the concatenation of the returned pages; it
stops on an empty page, stops after accumulating a page shorter than the
limit 1000, and otherwise repeats with the next startTime set to the
timestamp of the last record of the page plus one (the request log forms
the corresponding chain); for a source backed by a finite history sorted
by time, the result is independent of the fuel once the fuel exceeds the
number of needed requests (the loop terminates); and on the synthetic
2400-record history served as pages of sizes 1000, 1000, 400 it returns
exactly 2400 records after exactly 3 requests. -/
theorem c1_paginated_fetch :
    (∀ (src : Option Nat → List BinanceIncome) (fuel : Nat) (start : Option Nat),
        fundingFetch (fun s => Except.ok (src s)) fuel start
          = .ok (fundingFetchPure src fuel start)) ∧
    (∀ (src : Option Nat → List BinanceIncome) (fuel : Nat) (start : Option Nat),
        (fundingFetchPure src fuel start).1
          = ((fundingFetchPure src fuel start).2.map src).flatten) ∧
    (∀ (src : Option Nat → List BinanceIncome) (fuel : Nat) (start : Option Nat),
        src start = [] → fundingFetchPure src (fuel + 1) start = ([], [start])) ∧
    (∀ (src : Option Nat → List BinanceIncome) (fuel : Nat) (start : Option Nat),
        src start ≠ [] → (src start).length < 1000 →
        fundingFetchPure src (fuel + 1) start = (src start, [start])) ∧
    (∀ (src : Option Nat → List BinanceIncome) (fuel : Nat) (start : Option Nat)
        (h : src start ≠ []), ¬(src start).length < 1000 →
        fundingFetchPure src (fuel + 1) start
          = (src start
              ++ (fundingFetchPure src fuel (some (((src start).getLast h).time + 1))).1,
             start
              :: (fundingFetchPure src fuel (some (((src start).getLast h).time + 1))).2)) ∧
    (∀ (src : Option Nat → List BinanceIncome) (fuel : Nat) (start : Option Nat),
        (fundingFetchPure src fuel start).2.Chain'
          (fun a b => ∃ h : src a ≠ [], b = some (((src a).getLast h).time + 1))) ∧
    (∀ hist : List BinanceIncome, hist.Pairwise timeLe →
        ∀ (start : Option Nat) (fuel fuel' : Nat),
          remaining hist start / 1000 < fuel → remaining hist start / 1000 < fuel' →
          fundingFetchPure (histSrc hist) fuel start
            = fundingFetchPure (histSrc hist) fuel' start) ∧
    ((∀ s, (pageSrc s).length ≤ 1000) ∧
      (fundingFetch (fun s => Except.ok (pageSrc s)) 4 (some 0)).map
        (fun p => (p.1.length, p.2.length)) = .ok (2400, 3)) := by
  refine ⟨fundingFetch_pure_eq, fundingFetchPure_join, ?_, ?_,
    fundingFetchPure_full, fundingFetchPure_chain, ?_, ?_, ?_⟩
  · intro src fuel start h
    exact fundingFetchPure_empty src fuel start h
  · intro src fuel start h1 h2
    exact fundingFetchPure_short src fuel start h1 h2
  · intro hist hs start fuel fuel' hf hf'
    exact fetch_stable hist hs (remaining hist start / 1000) start fuel fuel'
      (le_refl _) hf hf'
  · intro s
    show ((List.range' _ _).map mkRec).length ≤ 1000
    rw [List.length_map, List.length_range']
    exact min_le_left _ _
  · rw [fundingFetch_pure_eq pageSrc 4 (some 0), fundingFetchPure_pageSrc]
    show Except.ok _ = Except.ok ((2400 : Nat), (3 : Nat))
    rw [Except.ok.injEq, Prod.mk.injEq]
    refine ⟨?_, rfl⟩
    rw [List.length_append, List.length_append, pageSrc_length, pageSrc_length,
      pageSrc_length]
    norm_num

/-- Witness for claim C1 at concrete inputs: the empty-page stop at a
source with no records, and fuel independence on the small sorted
history. -/
theorem c1_paginated_fetch_witness :
    fundingFetchPure (fun _ => ([] : List BinanceIncome)) (0 + 1) none = ([], [none]) ∧
    fundingFetchPure (histSrc smallHist) 2 (some 0)
      = fundingFetchPure (histSrc smallHist) 5 (some 0) :=
  ⟨c1_paginated_fetch.2.2.1 (fun _ => []) 0 none rfl,
   c1_paginated_fetch.2.2.2.2.2.2.1 smallHist (by decide) (some 0) 2 5
     (by decide) (by decide)⟩

end Funding
